import Mathlib

/-!
Verification of the normalization-and-enrichment pipeline of the
Scholarship/Loan scraper repository.

The two domain cleaners (`loans_data_cleaner.py` and
`scholarship_data_cleaner.py`) are embedded shallowly:

* a cell of a table is `Option Text` (`none` models a pandas `NaN`),
  where `Text` is a list of characters;
* a row is a total map from column names to cells (columns a row does
  not carry map to `none`);
* a data frame carries an explicit column list together with its rows;
* each pipeline stage of the source is one Lean function on data
  frames, and the regular-expression extractors are embedded as
  deterministic character-list matchers reproducing the leftmost-match
  semantics of `re.search` for the concrete patterns of the source
  (for these patterns greedy matching never needs backtracking across
  a character-class boundary, so the deterministic scan is faithful).
-/

/-- Text values are modelled as lists of characters. -/
abbrev Text := List Char

/-- A cell: `none` models a pandas `NaN` / missing value. -/
abbrev Val := Option Text

/-- A row: total map from column names to cells. -/
abbrev Row := String → Val

/-- A data frame: the column list together with the rows. -/
structure DF where
  cols : List String
  rows : List Row

/-- Shorthand turning a string literal into a character list. -/
def sl (s : String) : Text := s.data

/-- The ASCII whitespace class of Python (`str.strip` and the `\s`
class of the `re` module). -/
def isPySpace (c : Char) : Bool :=
  c = ' ' || c = '\t' || c = '\n' || c = '\r' || c = '\x0b' || c = '\x0c'

/-- Python `str.strip()`. -/
def pyStrip (l : Text) : Text :=
  ((l.dropWhile isPySpace).reverse.dropWhile isPySpace).reverse

/-- Python `str.lower()` (per-character, ASCII). -/
def toLowerL (l : Text) : Text := l.map Char.toLower

/-- Python substring test `pat in s`. -/
def containsSubstr (s pat : Text) : Bool :=
  pat.isPrefixOf s ||
    match s with
    | [] => false
    | _ :: t => containsSubstr t pat

/-- Substitution of every maximal whitespace run by a single space:
`str.replace(regex \s+ by a single space)` as used by
`clean_text_fields`. The flag records whether the previous character
belonged to a whitespace run already emitted as one space. -/
def collapseWsAux (prevSpace : Bool) : Text → Text
  | [] => []
  | c :: cs =>
    if isPySpace c then
      (if prevSpace then [] else [' ']) ++ collapseWsAux true cs
    else c :: collapseWsAux false cs

/-- Substitution of every maximal whitespace run by a single space. -/
def collapseWs (l : Text) : Text := collapseWsAux false l

/-- Split a text at its first closing angle bracket, returning the part
before it and the part after it. -/
def splitAtGt : Text → Option (Text × Text)
  | [] => none
  | c :: cs =>
    if c = '>' then some ([], cs)
    else
      match splitAtGt cs with
      | some (a, b) => some (c :: a, b)
      | none => none

/-- Removal of HTML tags: `re.sub` of the pattern
"opening angle bracket, one or more non-closing characters, closing
angle bracket" by the empty string, leftmost non-overlapping. The fuel
argument (instantiated with the input length, which bounds the number
of scanning steps) keeps the recursion structural. -/
def removeHtmlF : ℕ → Text → Text
  | 0, l => l
  | _ + 1, [] => []
  | fuel + 1, c :: cs =>
    if c = '<' then
      match splitAtGt cs with
      | some (run, rest) =>
        if run = [] then '<' :: removeHtmlF fuel cs
        else removeHtmlF fuel rest
      | none => '<' :: removeHtmlF fuel cs
    else c :: removeHtmlF fuel cs

/-- Removal of HTML tags. -/
def removeHtml (l : Text) : Text := removeHtmlF l.length l

/-- Leftmost search: try the matcher at every start position, from the
left, as `re.search` does. -/
def searchWith {α : Type} (m : Text → Option α) : Text → Option α
  | [] => m []
  | c :: t =>
    match m (c :: t) with
    | some g => some g
    | none => searchWith m t

/-- Digit-or-comma character class of the amount patterns. -/
def isDigitComma (c : Char) : Bool := c.isDigit || c = ','

/-- The capture group of the amount patterns at the head of the input:
one or more digits or commas, optionally followed by a dot and exactly
two digits. -/
def matchNumGroup (l : Text) : Option Text :=
  let run := l.takeWhile isDigitComma
  let rest := l.dropWhile isDigitComma
  if run = [] then none
  else
    match rest with
    | '.' :: d1 :: d2 :: _ =>
      if d1.isDigit && d2.isDigit then some (run ++ '.' :: d1 :: d2 :: [])
      else some run
    | _ => some run

/-- Consumption of the optional literal dot of the "Rs." pattern. -/
def skipDot (l : Text) : Text :=
  match l with
  | c :: r => if c = '.' then r else c :: r
  | [] => []

/-- Matcher, at one position, of the pattern "Rs, optional dot, optional
whitespace, amount group" (case-insensitive). -/
def matchRsAt (l : Text) : Option Text :=
  match l with
  | c1 :: c2 :: rest =>
    if c1.toLower = 'r' && c2.toLower = 's' then
      matchNumGroup ((skipDot rest).dropWhile isPySpace)
    else none
  | _ => none

/-- Matcher of "LKR, optional whitespace, amount group". -/
def matchLkrAt (l : Text) : Option Text :=
  match l with
  | c1 :: c2 :: c3 :: rest =>
    if c1.toLower = 'l' && c2.toLower = 'k' && c3.toLower = 'r' then
      matchNumGroup (rest.dropWhile isPySpace)
    else none
  | _ => none

/-- Matcher of "dollar sign immediately followed by the amount group". -/
def matchDollarAt (l : Text) : Option Text :=
  match l with
  | c :: rest => if c = '$' then matchNumGroup rest else none
  | [] => none

/-- Matcher of "USD, optional whitespace, amount group". -/
def matchUsdAt (l : Text) : Option Text :=
  match l with
  | c1 :: c2 :: c3 :: rest =>
    if c1.toLower = 'u' && c2.toLower = 's' && c3.toLower = 'd' then
      matchNumGroup (rest.dropWhile isPySpace)
    else none
  | _ => none

/-- The ordered currency-pattern list of `extract_amount`: each pattern
is searched over the whole text before the next one is tried. -/
def amountSearch (l : Text) : Option Text :=
  match searchWith matchRsAt l with
  | some g => some g
  | none =>
    match searchWith matchLkrAt l with
    | some g => some g
    | none =>
      match searchWith matchDollarAt l with
      | some g => some g
      | none => searchWith matchUsdAt l

/-- Removal of thousands separators: `group.replace(comma, empty)`. -/
def stripCommas (l : Text) : Text := l.filter (fun c => c ≠ ',')

/-- The `extract_amount` inner function, parametrized by the
descriptive-keyword list (the loans cleaner and the scholarship
cleaner differ only in that list). In the loans source the try/except
around the float conversion returns the same string on both paths, so
it is the identity here. -/
def extractAmountWith (kws : List Text) (v : Val) : Text :=
  match v with
  | none => sl "N/A"
  | some t =>
    if t = sl "N/A" then sl "N/A"
    else
      match amountSearch t with
      | some g => sl "Rs. " ++ stripCommas g
      | none =>
        if t.contains '%' then pyStrip t
        else if kws.any (fun k => containsSubstr (toLowerL t) k) then pyStrip t
        else if t = [] then sl "N/A" else t

/-- Descriptive keywords of the loans `extract_amount`. -/
def loansAmountKws : List Text :=
  [sl "varies", sl "based", sl "up to", sl "minimum", sl "maximum"]

/-- Descriptive keywords of the scholarship `extract_amount`. -/
def scholAmountKws : List Text :=
  [sl "varies", sl "based", sl "up to", sl "minimum"]

/-- `extract_amount` of the loans cleaner. -/
def extract_amount (v : Val) : Text := extractAmountWith loansAmountKws v

/-- `extract_amount` of the scholarship cleaner. -/
def schol_extract_amount (v : Val) : Text := extractAmountWith scholAmountKws v

/-- Case-insensitive literal-at-position test (for the alternations of
the extractor patterns, whose literals are written here lowercased). -/
def icStarts (p : Text) (l : Text) : Bool :=
  ((l.take p.length).map Char.toLower) == p

/-- Matcher of a digit run (one or more digits) at the head. -/
def matchDigitsAt (l : Text) : Option Text :=
  let run := l.takeWhile Char.isDigit
  if run = [] then none else some run

/-- Matcher of "digits, optional whitespace, year unit" at one position
(case-insensitive alternation of year, yr, years, yrs). -/
def matchYearAt (l : Text) : Option Text :=
  match matchDigitsAt l with
  | none => none
  | some run =>
    let rest := (l.dropWhile Char.isDigit).dropWhile isPySpace
    if icStarts (sl "year") rest || icStarts (sl "yr") rest ||
        icStarts (sl "years") rest || icStarts (sl "yrs") rest then some run
    else none

/-- Matcher of "digits, optional whitespace, month unit". -/
def matchMonthAt (l : Text) : Option Text :=
  match matchDigitsAt l with
  | none => none
  | some run =>
    let rest := (l.dropWhile Char.isDigit).dropWhile isPySpace
    if icStarts (sl "month") rest || icStarts (sl "months") rest ||
        icStarts (sl "mo") rest then some run
    else none

/-- Matcher of "digits, optional whitespace, installment unit". -/
def matchInstallAt (l : Text) : Option Text :=
  match matchDigitsAt l with
  | none => none
  | some run =>
    let rest := (l.dropWhile Char.isDigit).dropWhile isPySpace
    if icStarts (sl "installment") rest || icStarts (sl "installments") rest ||
        icStarts (sl "emi") rest then some run
    else none

/-- The `extract_period` inner function of the loans cleaner. -/
def extract_period (v : Val) : Text :=
  match v with
  | none => sl "N/A"
  | some t0 =>
    if t0 = sl "N/A" then sl "N/A"
    else
      let t := pyStrip t0
      match searchWith matchYearAt t with
      | some n => n ++ sl " years"
      | none =>
        match searchWith matchMonthAt t with
        | some n => n ++ sl " months"
        | none =>
          match searchWith matchInstallAt t with
          | some n => n ++ sl " installments"
          | none => if t = [] then sl "N/A" else t

/-- Matcher of "digit-or-dot run, optional whitespace, percent sign". -/
def matchRateAt (l : Text) : Option Text :=
  let run := l.takeWhile (fun c => c.isDigit || c = '.')
  if run = [] then none
  else
    let rest := (l.dropWhile (fun c => c.isDigit || c = '.')).dropWhile isPySpace
    match rest with
    | '%' :: _ => some run
    | _ => none

/-- Special-rate keywords of `extract_rate`. -/
def rateKws : List Text := [sl "free", sl "zero", sl "0%", sl "interest-free"]

/-- The `extract_rate` inner function of the loans cleaner. -/
def extract_rate (v : Val) : Text :=
  match v with
  | none => sl "N/A"
  | some t0 =>
    if t0 = sl "N/A" then sl "N/A"
    else
      let t := pyStrip t0
      match searchWith matchRateAt t with
      | some run => run ++ sl "%"
      | none =>
        if rateKws.any (fun k => containsSubstr (toLowerL t) k) then sl "Interest-Free"
        else if containsSubstr (toLowerL t) (sl "competitive") ||
            containsSubstr (toLowerL t) (sl "market") then pyStrip t
        else if t = [] then sl "N/A" else t

/-- Matcher of the age-range pattern "digits, optional whitespace, one
of the literals to / dash / and (case-sensitive, as in the source),
optional whitespace, digits", returning the two digit groups. -/
def matchAgeRangeAt (l : Text) : Option (Text × Text) :=
  match matchDigitsAt l with
  | none => none
  | some n1 =>
    let rest := (l.dropWhile Char.isDigit).dropWhile isPySpace
    let sep? : Option Text :=
      if (sl "to").isPrefixOf rest then some (rest.drop 2)
      else if (sl "-").isPrefixOf rest then some (rest.drop 1)
      else if (sl "and").isPrefixOf rest then some (rest.drop 3)
      else none
    match sep? with
    | none => none
    | some rest2 =>
      match matchDigitsAt (rest2.dropWhile isPySpace) with
      | none => none
      | some n2 => some (n1, n2)

/-- Matcher of the single-age pattern "digits, optional whitespace,
year unit with optional plural s" (case-insensitive). -/
def matchSingleAgeAt (l : Text) : Option Text :=
  match matchDigitsAt l with
  | none => none
  | some n =>
    let rest := (l.dropWhile Char.isDigit).dropWhile isPySpace
    if icStarts (sl "year") rest || icStarts (sl "yr") rest then some n else none

/-- The `extract_age` inner function of the loans cleaner. -/
def extract_age (v : Val) : Text :=
  match v with
  | none => sl "N/A"
  | some t0 =>
    if t0 = sl "N/A" then sl "N/A"
    else
      let t := pyStrip t0
      match searchWith matchAgeRangeAt t with
      | some p => p.1 ++ sl "-" ++ p.2 ++ sl " years"
      | none =>
        match searchWith matchSingleAgeAt t with
        | some n => n ++ sl "+ years"
        | none => if t = [] then sl "N/A" else t

/-- Matcher of one or two digits (greedy), returning the digits and the
remainder. -/
def matchD12 (l : Text) : Option (Text × Text) :=
  match l with
  | c1 :: rest =>
    if c1.isDigit then
      match rest with
      | c2 :: r2 => if c2.isDigit then some ([c1, c2], r2) else some ([c1], rest)
      | [] => some ([c1], [])
    else none
  | [] => none

/-- Date separators of the numeric-date pattern. -/
def isDateSep (c : Char) : Bool := c = '-' || c = '/'

/-- Matcher of the numeric-date pattern "one or two digits, separator,
one or two digits, separator, two to four digits". -/
def matchNumDateAt (l : Text) : Option Text :=
  match matchD12 l with
  | none => none
  | some (d1, r1) =>
    match r1 with
    | s1 :: r2 =>
      if isDateSep s1 then
        match matchD12 r2 with
        | none => none
        | some (d2, r3) =>
          match r3 with
          | s2 :: r4 =>
            if isDateSep s2 then
              let run := r4.takeWhile Char.isDigit
              if 2 ≤ run.length then some (d1 ++ s1 :: (d2 ++ s2 :: run.take 4))
              else none
            else none
          | [] => none
      else none
    | [] => none

/-- Full month names (lowercased literals of the second date pattern). -/
def longMonths : List Text :=
  [sl "january", sl "february", sl "march", sl "april", sl "may", sl "june",
   sl "july", sl "august", sl "september", sl "october", sl "november", sl "december"]

/-- Abbreviated month names (third date pattern). -/
def shortMonths : List Text :=
  [sl "jan", sl "feb", sl "mar", sl "apr", sl "may", sl "jun",
   sl "jul", sl "aug", sl "sep", sl "oct", sl "nov", sl "dec"]

/-- Ordered alternation over literal alternatives (case-insensitive);
returns the consumed original characters and the remainder. -/
def matchAlt (alts : List Text) (l : Text) : Option (Text × Text) :=
  match alts with
  | [] => none
  | a :: rest =>
    if icStarts a l then some (l.take a.length, l.drop a.length)
    else matchAlt rest l

/-- Matcher of one-or-more whitespace, returning the consumed
characters and the remainder. -/
def matchWs1 (l : Text) : Option (Text × Text) :=
  match l with
  | c :: _ => if isPySpace c then some (l.takeWhile isPySpace, l.dropWhile isPySpace) else none
  | [] => none

/-- Matcher of the month-name date patterns "one or two digits,
whitespace, month name, whitespace, four digits". -/
def matchMonthNameDateAt (months : List Text) (l : Text) : Option Text :=
  match matchD12 l with
  | none => none
  | some (d, r1) =>
    match matchWs1 r1 with
    | none => none
    | some (w1, r2) =>
      match matchAlt months r2 with
      | none => none
      | some (mn, r3) =>
        match matchWs1 r3 with
        | none => none
        | some (w2, r4) =>
          let run := r4.takeWhile Char.isDigit
          if 4 ≤ run.length then some (d ++ w1 ++ mn ++ w2 ++ run.take 4) else none

/-- Relative-duration keywords of `extract_deadline_date`. -/
def deadlineDurKws : List Text := [sl "week", sl "month", sl "day", sl "hour"]

/-- Open-deadline keywords of `extract_deadline_date`. -/
def deadlineOngoingKws : List Text := [sl "ongoing", sl "rolling", sl "continuous"]

/-- The `extract_deadline_date` inner function of the scholarship
cleaner. -/
def extract_deadline_date (v : Val) : Text :=
  match v with
  | none => sl "N/A"
  | some t0 =>
    if t0 = sl "N/A" then sl "N/A"
    else
      let t := pyStrip t0
      match searchWith matchNumDateAt t with
      | some g => g
      | none =>
        match searchWith (matchMonthNameDateAt longMonths) t with
        | some g => g
        | none =>
          match searchWith (matchMonthNameDateAt shortMonths) t with
          | some g => g
          | none =>
            if deadlineDurKws.any (fun k => containsSubstr (toLowerL t) k) then pyStrip t
            else if deadlineOngoingKws.any (fun k => containsSubstr (toLowerL t) k) then sl "Ongoing"
            else if t = [] then sl "N/A" else t

/-- The characters of a whitespace run that follow its last newline. -/
def afterLastNl (run : Text) : Text :=
  (run.reverse.takeWhile (fun c => c ≠ '\n')).reverse

/-- The remainder of the scan after a match of the pattern "newline,
whitespace run, newline" whose leading newline has just been consumed:
the greedy whitespace star backtracks to the last newline of the run,
so the remainder starts right after that newline. `none` when the run
following the leading newline contains no further newline (no match at
this position). -/
def nlMatchRem (cs : Text) : Option Text :=
  let run := cs.takeWhile isPySpace
  if run.contains '\n' then some (afterLastNl run ++ cs.drop run.length)
  else none

/-- Substitution of "newline, whitespace run containing a newline" by a
single newline (leftmost, non-overlapping): the first `re.sub` of the
eligibility cleaner. Fuel keeps the recursion structural; the input
length bounds the number of scanning steps. -/
def sub1NlWsF : ℕ → Text → Text
  | 0, l => l
  | _ + 1, [] => []
  | fuel + 1, c :: cs =>
    if c = '\n' then
      match nlMatchRem cs with
      | some r => '\n' :: sub1NlWsF fuel r
      | none => c :: sub1NlWsF fuel cs
    else c :: sub1NlWsF fuel cs

/-- First `re.sub` of the eligibility cleaner. -/
def sub1NlWs (l : Text) : Text := sub1NlWsF l.length l

/-- Substitution of every newline run by a single newline: the second
`re.sub` of the eligibility cleaner. The flag records whether the
previous character belonged to a newline run already emitted. -/
def sub2NlAux (prevNl : Bool) : Text → Text
  | [] => []
  | c :: cs =>
    if c = '\n' then
      (if prevNl then [] else ['\n']) ++ sub2NlAux true cs
    else c :: sub2NlAux false cs

/-- Second `re.sub` of the eligibility cleaner. -/
def sub2Nl (l : Text) : Text := sub2NlAux false l

/-- The `clean_eligibility_text` inner function (identical in the two
cleaners): strip, collapse blank lines, truncate at 500 characters. -/
def cleanEligVal (v : Val) : Text :=
  match v with
  | none => sl "N/A"
  | some t0 =>
    if t0 = sl "N/A" then sl "N/A"
    else
      let t1 := pyStrip t0
      let t2 := sub2Nl (sub1NlWs t1)
      let t3 := if 500 < t2.length then t2.take 500 ++ sl "..." else t2
      if t3 = [] then sl "N/A" else t3

/-! ## Data-frame stages -/

/-- Update one cell of a row. -/
def updateRow (r : Row) (k : String) (v : Val) : Row :=
  fun k2 => if k2 = k then v else r k2

/-- Apply a cell transform to one column of every row
(`df[col] = df[col].apply(f)`). -/
def mapCol (k : String) (f : Val → Val) (df : DF) : DF :=
  ⟨df.cols, df.rows.map (fun r => updateRow r k (f (r k)))⟩

/-- Add a column filled with the sentinel when the column is absent
from the frame (`if col not in df.columns: df[col] = 'N/A'`). -/
def addColIfMissing (df : DF) (c : String) : DF :=
  if df.cols.contains c then df
  else ⟨df.cols ++ [c], df.rows.map (fun r => updateRow r c (some (sl "N/A")))⟩

/-- Add every missing expected column. The Python source iterates a
set literal, whose order is unspecified; only membership is relevant,
and the fixed list order of the source text is used here. -/
def addMissingCols (expected : List String) (df : DF) : DF :=
  expected.foldl addColIfMissing df

/-- Column-to-column copy (`df[dst] = df[src]`). -/
def copyCol (dst src : String) (df : DF) : DF :=
  ⟨df.cols, df.rows.map (fun r => updateRow r dst (r src))⟩

/-- Common columns of the loans cleaner. -/
def loansCommonCols : List String :=
  ["name", "description", "eligibility", "funding_amount", "deadline", "contact",
   "application_url", "source", "url", "scrape_date"]

/-- Bank-specific columns of the loans cleaner. -/
def loansBankCols : List String :=
  ["bank_name", "loan_product_name", "maximum_loan_amount", "minimum_loan_amount",
   "interest_rate", "repayment_period", "age_criteria", "income_criteria",
   "documents_required", "special_benefits", "contact_info", "website_url", "bank_code"]

/-- All expected columns of the loans cleaner. -/
def loansAllExpected : List String := loansCommonCols ++ loansBankCols

/-- `LoansDataCleaner.standardize_columns`: add the missing expected
columns, then the four alias branches, each guarded exactly as in the
source (the guards are evaluated on the frame after the additions). -/
def loansStandardize (df0 : DF) : DF :=
  let df1 := addMissingCols loansAllExpected df0
  let df2 :=
    if df1.cols.contains "bank_name" && !(df1.cols.contains "name") then
      copyCol "name" "bank_name" df1
    else df1
  let df3 :=
    if df2.cols.contains "loan_product_name" && df2.rows.all (fun r => (r "name").isNone) then
      copyCol "name" "loan_product_name" df2
    else df2
  let df4 :=
    if df3.cols.contains "contact_info" && !(df3.cols.contains "contact") then
      copyCol "contact" "contact_info" df3
    else df3
  if df4.cols.contains "website_url" && !(df4.cols.contains "application_url") then
    copyCol "application_url" "website_url" df4
  else df4

/-- Expected columns of the scholarship cleaner (its own set literal;
the order used for the final column selection is unspecified in the
source, a fixed order is used here). -/
def scholExpectedCols : List String :=
  ["name", "description", "eligibility", "funding_amount", "deadline", "contact",
   "application_url", "source", "url", "scrape_date"]

/-- Keep only the given columns (`df = df[list(expected_columns)]`). -/
def restrictCols (keep : List String) (df : DF) : DF :=
  ⟨keep, df.rows.map (fun r => fun k => if keep.contains k then r k else none)⟩

/-- `ScholarshipDataCleaner.standardize_columns`. -/
def scholStandardize (df0 : DF) : DF :=
  restrictCols scholExpectedCols (addMissingCols scholExpectedCols df0)

/-- Keep-first deduplication with an accumulator of already seen keys:
the semantics of `drop_duplicates(subset, keep='first')` (pandas marks
a row as duplicate when its key was seen in an earlier row). -/
def dropDupsSeen {K : Type} [DecidableEq K] (key : Row → K) (seen : List K) :
    List Row → List Row
  | [] => []
  | r :: rs =>
    if key r ∈ seen then dropDupsSeen key seen rs
    else r :: dropDupsSeen key (key r :: seen) rs

/-- `drop_duplicates(subset=key, keep='first')`. -/
def drop_duplicates {K : Type} [DecidableEq K] (key : Row → K) (rows : List Row) :
    List Row :=
  dropDupsSeen key [] rows

/-- The name key of the second deduplication pass. -/
def nameKey (r : Row) : Val := r "name"

/-- The (name, source) key of the first deduplication pass. -/
def nameSourceKey (r : Row) : Val × Val := (r "name", r "source")

/-- The two keep-first passes shared by both cleaners: duplicates on
(name, source) first, then duplicates on name alone. -/
def remove_duplicates_rows (rows : List Row) : List Row :=
  drop_duplicates nameKey (drop_duplicates nameSourceKey rows)

/-- `LoansDataCleaner.remove_duplicates` (the first pass is guarded on
the presence of the name and source columns). -/
def loansRemoveDuplicates (df : DF) : DF :=
  let rows1 :=
    if df.cols.contains "name" && df.cols.contains "source" then
      drop_duplicates nameSourceKey df.rows
    else df.rows
  ⟨df.cols, drop_duplicates nameKey rows1⟩

/-- `ScholarshipDataCleaner.remove_duplicates`. -/
def scholRemoveDuplicates (df : DF) : DF :=
  ⟨df.cols, remove_duplicates_rows df.rows⟩

/-- Null-like strings replaced by the sentinel in `clean_text_fields`. -/
def nullLikes : List Text :=
  [sl "N/A", sl "n/a", sl "NA", sl "None", sl "none", sl ""]

/-- The per-cell transform of `clean_text_fields`: strip, collapse
whitespace, replace null-like strings by the sentinel, remove HTML
tags. A missing value stays missing (the pandas str accessor and the
list replace both leave NaN untouched). -/
def cleanTextVal (v : Val) : Val :=
  match v with
  | none => none
  | some t =>
    let t1 := pyStrip t
    let t2 := collapseWs t1
    let t3 := if nullLikes.contains t2 then sl "N/A" else t2
    some (removeHtml t3)

/-- `clean_text_fields`: clean the listed columns, each guarded on
presence. -/
def cleanTextCols (colsToClean : List String) (df : DF) : DF :=
  colsToClean.foldl (fun d c => if d.cols.contains c then mapCol c cleanTextVal d else d) df

/-- Text columns of the loans cleaner. -/
def loansTextCols : List String :=
  ["name", "description", "eligibility", "contact", "loan_product_name"]

/-- Text columns of the scholarship cleaner. -/
def scholTextCols : List String := ["name", "description", "eligibility", "contact"]

/-- Amount columns of `extract_loan_amounts`. -/
def loansAmountCols : List String :=
  ["funding_amount", "maximum_loan_amount", "minimum_loan_amount"]

/-- `LoansDataCleaner.extract_loan_amounts`. -/
def loansExtractAmounts (df : DF) : DF :=
  loansAmountCols.foldl
    (fun d c => if d.cols.contains c then mapCol c (fun v => some (extract_amount v)) d else d) df

/-- `LoansDataCleaner.extract_repayment_period`: the second branch
reuses the deadline column as extraction input and creates the
repayment-period column. -/
def loansExtractPeriod (df : DF) : DF :=
  if df.cols.contains "repayment_period" then
    mapCol "repayment_period" (fun v => some (extract_period v)) df
  else if df.cols.contains "deadline" then
    ⟨df.cols ++ ["repayment_period"],
     df.rows.map (fun r => updateRow r "repayment_period" (some (extract_period (r "deadline"))))⟩
  else df

/-- `LoansDataCleaner.extract_interest_rate`. -/
def loansExtractRate (df : DF) : DF :=
  if df.cols.contains "interest_rate" then
    mapCol "interest_rate" (fun v => some (extract_rate v)) df
  else df

/-- `LoansDataCleaner.extract_age_range`. -/
def loansExtractAge (df : DF) : DF :=
  if df.cols.contains "age_criteria" then
    mapCol "age_criteria" (fun v => some (extract_age v)) df
  else df

/-- `LoansDataCleaner.clean_eligibility`. -/
def loansCleanElig (df : DF) : DF :=
  if df.cols.contains "eligibility" then
    mapCol "eligibility" (fun v => some (cleanEligVal v)) df
  else df

/-- `ScholarshipDataCleaner.extract_funding_amount` (the temporary
cleaned column is added, copied back and dropped in the source; the
net effect on the frame is the in-place transform). -/
def scholExtractFunding (df : DF) : DF :=
  mapCol "funding_amount" (fun v => some (schol_extract_amount v)) df

/-- `ScholarshipDataCleaner.extract_deadline` (same temporary-column
pattern as the funding extraction). -/
def scholExtractDeadline (df : DF) : DF :=
  mapCol "deadline" (fun v => some (extract_deadline_date v)) df

/-- `ScholarshipDataCleaner.clean_eligibility`. -/
def scholCleanElig (df : DF) : DF :=
  mapCol "eligibility" (fun v => some (cleanEligVal v)) df

/-- `LoansDataCleaner.remove_empty_rows`: keep rows whose name differs
from the sentinel (a pandas NaN compares unequal and is kept). -/
def loansRemoveEmpty (df : DF) : DF :=
  ⟨df.cols, df.rows.filter (fun r => !(r "name" == some (sl "N/A")))⟩

/-- `ScholarshipDataCleaner.remove_empty_rows`: keep rows whose name
and source both differ from the sentinel. -/
def scholRemoveEmpty (df : DF) : DF :=
  ⟨df.cols, df.rows.filter
    (fun r => !(r "name" == some (sl "N/A")) && !(r "source" == some (sl "N/A")))⟩

/-! ## Quality scoring and categorization -/

/-- The presence test of the quality scorer on one cell:
`row[field] != 'N/A' and pd.notna(row[field])`. -/
def presentVal (v : Val) : Bool :=
  match v with
  | none => false
  | some t => !(t == sl "N/A")

/-- Key fields of the loans quality score. -/
def loanKeyFields : List String :=
  ["name", "description", "eligibility", "funding_amount", "contact"]

/-- Key fields of the scholarship quality score. -/
def scholKeyFields : List String :=
  ["name", "description", "eligibility", "funding_amount", "deadline", "contact"]

/-- Rounding to two decimal places (`round(x, 2)`; no score value or
tie-relevant rate reaches an exact half, so the tie-breaking rule is
immaterial for the proved statements). -/
def round2 (q : ℚ) : ℚ := (round (q * 100) : ℤ) / 100

/-- `calculate_quality_score` of the loans cleaner: each key field that
is present in the row index and holds a present value adds 100 divided
by the number of key fields; the sum is rounded to two decimals. -/
def loansQualityScore (cols : List String) (r : Row) : ℚ :=
  round2 (loanKeyFields.foldl
    (fun score f =>
      if cols.contains f && presentVal (r f) then
        score + 100 / (loanKeyFields.length : ℚ)
      else score) 0)

/-- `calculate_quality_score` of the scholarship cleaner (no
row-index guard). -/
def scholQualityScore (r : Row) : ℚ :=
  round2 (scholKeyFields.foldl
    (fun score f =>
      if presentVal (r f) then score + 100 / (scholKeyFields.length : ℚ)
      else score) 0)

/-- A finalized data frame: rows paired with their quality score. -/
structure FinalDF where
  cols : List String
  rows : List (Row × ℚ)

/-- `add_data_quality_score` of the loans cleaner. -/
def loansAddScore (df : DF) : FinalDF :=
  ⟨df.cols ++ ["data_quality_score"], df.rows.map (fun r => (r, loansQualityScore df.cols r))⟩

/-- `add_data_quality_score` of the scholarship cleaner. -/
def scholAddScore (df : DF) : FinalDF :=
  ⟨df.cols ++ ["data_quality_score"], df.rows.map (fun r => (r, scholQualityScore r))⟩

/-- Python `str()` of a cell inside the categorizers: a pandas missing
value prints as the text nan. -/
def valStr (v : Val) : Text :=
  match v with
  | none => sl "nan"
  | some t => t

/-- Bank keywords of `categorize_loan`. -/
def loansBankKws : List Text :=
  [sl "bank", sl "boc", sl "commercial", sl "peoples", sl "hnb", sl "nsb", sl "pabc"]

/-- `categorize_loan`. -/
def categorizeLoan (r : Row) : Text :=
  let text := toLowerL (valStr (r "name") ++ sl " " ++ valStr (r "description"))
  if containsSubstr text (sl "government") || containsSubstr text (sl "mohe") then
    sl "Government Loan"
  else if loansBankKws.any (fun k => containsSubstr text k) then sl "Bank Loan"
  else if containsSubstr text (sl "buddhi") || containsSubstr text (sl "nsb") then
    sl "NSB Loan"
  else if containsSubstr text (sl "dai") || containsSubstr text (sl "awarding") then
    sl "DAI Related"
  else sl "Other"

/-- Numeric value of a digit run (`int(...)` on the matched group). -/
def natOfDigits (l : Text) : ℕ :=
  l.foldl (fun a c => 10 * a + (c.toNat - '0'.toNat)) 0

/-- `categorize_duration` (the sentinel test against the lowered text
can never fire, exactly as in the source). -/
def categorizeDuration (r : Row) : Text :=
  let text := toLowerL (valStr (r "repayment_period"))
  if text = sl "N/A" then sl "Unknown"
  else
    match searchWith matchDigitsAt text with
    | some run =>
      let years := natOfDigits run
      if years ≤ 3 then sl "Short-term (≤3 years)"
      else if years ≤ 7 then sl "Medium-term (4-7 years)"
      else sl "Long-term (>7 years)"
    | none => sl "Unknown"

/-- `add_loan_type`. -/
def loansAddType (f : FinalDF) : FinalDF :=
  ⟨f.cols ++ ["loan_type"],
   f.rows.map (fun p => (updateRow p.1 "loan_type" (some (categorizeLoan p.1)), p.2))⟩

/-- `add_loan_duration_category`. -/
def loansAddDuration (f : FinalDF) : FinalDF :=
  ⟨f.cols ++ ["loan_duration_category"],
   f.rows.map (fun p => (updateRow p.1 "loan_duration_category" (some (categorizeDuration p.1)), p.2))⟩

/-- `categorize_scholarship`. -/
def categorizeScholarship (r : Row) : Text :=
  let text := toLowerL (valStr (r "name") ++ sl " " ++ valStr (r "description"))
  if [sl "merit", sl "academic", sl "performance", sl "exam", sl "gpa"].any
      (fun k => containsSubstr text k) then sl "Merit-Based"
  else if [sl "need", sl "income", sl "poor", sl "low-income", sl "financial"].any
      (fun k => containsSubstr text k) then sl "Need-Based"
  else if [sl "sport", sl "athletic", sl "talent"].any
      (fun k => containsSubstr text k) then sl "Talent-Based"
  else if [sl "bursary", sl "grant"].any (fun k => containsSubstr text k) then
    sl "Grant/Bursary"
  else if [sl "government", sl "mahapola"].any (fun k => containsSubstr text k) then
    sl "Government"
  else sl "General"

/-- `extract_region` of the scholarship cleaner. -/
def scholRegion (r : Row) : Text :=
  let text := toLowerL (valStr (r "name") ++ sl " " ++ valStr (r "description") ++
    sl " " ++ valStr (r "eligibility"))
  if containsSubstr text (sl "sri lanka") || containsSubstr text (sl "sliit") ||
      containsSubstr text (sl "ousl") then sl "Sri Lanka"
  else if [sl "local", sl "domestic"].any (fun k => containsSubstr text k) then sl "Local"
  else if [sl "foreign", sl "overseas", sl "international", sl "abroad"].any
      (fun k => containsSubstr text k) then sl "International"
  else if [sl "both", sl "local or"].any (fun k => containsSubstr text k) then sl "Both"
  else sl "Unknown"

/-- `add_scholarship_type`. -/
def scholAddType (f : FinalDF) : FinalDF :=
  ⟨f.cols ++ ["scholarship_type"],
   f.rows.map (fun p => (updateRow p.1 "scholarship_type" (some (categorizeScholarship p.1)), p.2))⟩

/-- `add_eligibility_region`. -/
def scholAddRegion (f : FinalDF) : FinalDF :=
  ⟨f.cols ++ ["eligible_region"],
   f.rows.map (fun p => (updateRow p.1 "eligible_region" (some (scholRegion p.1)), p.2))⟩

/-- Desired column order of the loans `reorder_columns`. -/
def loansColOrder : List String :=
  ["name", "loan_type", "loan_duration_category", "description", "eligibility",
   "maximum_loan_amount", "minimum_loan_amount", "funding_amount", "interest_rate",
   "repayment_period", "age_criteria", "income_criteria", "contact",
   "application_url", "source", "data_quality_score", "scrape_date"]

/-- `LoansDataCleaner.reorder_columns`: the desired columns that exist,
then the remaining columns in their original relative order. -/
def loansReorder (f : FinalDF) : FinalDF :=
  let available := loansColOrder.filter (fun c => f.cols.contains c)
  ⟨available ++ f.cols.filter (fun c => !(available.contains c)), f.rows⟩

/-- Desired column order of the scholarship `reorder_columns`. -/
def scholColOrder : List String :=
  ["name", "scholarship_type", "eligible_region", "description", "eligibility",
   "funding_amount", "deadline", "contact", "application_url", "source", "url",
   "data_quality_score", "scrape_date"]

/-- `ScholarshipDataCleaner.reorder_columns`: the fixed order followed
by any remaining columns. -/
def scholReorder (f : FinalDF) : FinalDF :=
  ⟨scholColOrder ++ f.cols.filter (fun c => !(scholColOrder.contains c)), f.rows⟩

/-! ## Pipelines, loading, reporting -/

/-- The loans transform pipeline, from the concatenated raw frame to
the final table (the stage order of `LoansDataCleaner.clean`). -/
def loansPipeline (df : DF) : FinalDF :=
  loansReorder (loansAddDuration (loansAddType (loansAddScore
    (loansRemoveEmpty (loansCleanElig (loansExtractAge (loansExtractRate
      (loansExtractPeriod (loansExtractAmounts (cleanTextCols loansTextCols
        (loansRemoveDuplicates (loansStandardize df))))))))))))

/-- The scholarship transform pipeline (the stage order of
`ScholarshipDataCleaner.clean`). -/
def scholPipeline (df : DF) : FinalDF :=
  scholReorder (scholAddRegion (scholAddType (scholAddScore
    (scholRemoveEmpty (scholCleanElig (scholExtractDeadline (scholExtractFunding
      (cleanTextCols scholTextCols (scholRemoveDuplicates (scholStandardize df))))))))))

/-- Column union in order of first appearance (`pd.concat` on frames
with differing schemas). -/
def unionCols (a b : List String) : List String :=
  a ++ b.filter (fun c => !(a.contains c))

/-- Concatenation of two frames: rows appended; a row keeps `none` at
the columns its own source lacks. -/
def concatDF (a b : DF) : DF :=
  ⟨unionCols a.cols b.cols, a.rows ++ b.rows⟩

/-- The empty frame. -/
def emptyDF : DF := ⟨[], []⟩

/-- `pd.concat` over a list of frames, in source order. -/
def concatAll (dfs : List DF) : DF :=
  match dfs with
  | [] => emptyDF
  | d :: ds => ds.foldl concatDF d

/-- `load_data`: the inputs are the parse results of the discovered
files (`none` models a file `pd.read_csv` failed on, which is logged
and skipped); loading succeeds when at least one file parsed. -/
def loadData (inputs : List (Option DF)) : Option DF :=
  let parsed := inputs.filterMap id
  if parsed.isEmpty then none else some (concatAll parsed)

/-- Outcome of a full cleaner run. -/
inductive RunResult where
  | loadFailed
  | error
  | ok (f : FinalDF)

/-- The removal-rate line of the cleaning report:
`(original - cleaned) / original * 100`, a division that raises
`ZeroDivisionError` when the original count is zero. -/
def removalRate (orig finalCount : ℕ) : Option ℚ :=
  if orig = 0 then none
  else some (round2 (((orig : ℚ) - (finalCount : ℚ)) / (orig : ℚ) * 100))

/-- `generate_cleaning_report`: evaluates the removal rate first; the
later field-completeness lines divide by the cleaned count. The result
is the removal rate, or `none` when a division raises. -/
def generateReport (orig finalCount : ℕ) : Option ℚ :=
  match removalRate orig finalCount with
  | none => none
  | some q => if finalCount = 0 then none else some q

/-- `LoansDataCleaner.clean`: abort when loading fails; any exception
of a later stage (modelled: the report divisions) is caught at the top
level and the run reports failure without persisting output. -/
def loansClean (inputs : List (Option DF)) : RunResult :=
  match loadData inputs with
  | none => RunResult.loadFailed
  | some df =>
    let final := loansPipeline df
    match generateReport df.rows.length final.rows.length with
    | none => RunResult.error
    | some _ => RunResult.ok final

/-! ## Deduplication theory -/

/-- Keep, for each distinct key, exactly the first row bearing it, in
table order: the reference form of keep-first deduplication, following
the wording of the specification (first occurrence preserved, relative
order unchanged). -/
def keepFirstBy {K : Type} [DecidableEq K] (key : Row → K) : List Row → List Row
  | [] => []
  | r :: rs => r :: keepFirstBy key (rs.filter (fun x => decide (key x ≠ key r)))
termination_by l => l.length
decreasing_by
  exact Nat.lt_succ_of_le (List.Sublist.length_le (List.filter_sublist _))

theorem keepFirstBy_sublist {K : Type} [DecidableEq K] (key : Row → K) (l : List Row) :
    List.Sublist (keepFirstBy key l) l := by
  induction l using keepFirstBy.induct key with
  | case1 => simp [keepFirstBy]
  | case2 r rs ih =>
    rw [keepFirstBy]
    exact List.Sublist.cons₂ r (List.Sublist.trans ih (List.filter_sublist _))

theorem dropDupsSeen_eq_keepFirstBy {K : Type} [DecidableEq K] (key : Row → K)
    (l : List Row) :
    ∀ (seen : List K),
      dropDupsSeen key seen l = keepFirstBy key (l.filter (fun x => decide (key x ∉ seen))) := by
  induction l with
  | nil => intro seen; simp [dropDupsSeen, keepFirstBy]
  | cons r rs ih =>
    intro seen
    by_cases hmem : key r ∈ seen
    · rw [dropDupsSeen, if_pos hmem, List.filter_cons, if_neg (by simp [hmem])]
      exact ih seen
    · rw [dropDupsSeen, if_neg hmem, List.filter_cons, if_pos (by simp [hmem])]
      have hAB : rs.filter (fun x => decide (key x ∉ key r :: seen)) =
          (rs.filter (fun x => decide (key x ∉ seen))).filter
            (fun x => decide (key x ≠ key r)) := by
        rw [List.filter_filter]
        apply List.filter_congr
        intro x _
        by_cases hx : key x = key r
        · simp [hx]
        · by_cases hs : key x ∈ seen
          · simp [hx, hs]
          · simp [hx, hs]
      rw [ih (key r :: seen), hAB, keepFirstBy]

theorem drop_duplicates_eq_keepFirstBy {K : Type} [DecidableEq K] (key : Row → K)
    (l : List Row) : drop_duplicates key l = keepFirstBy key l := by
  rw [drop_duplicates, dropDupsSeen_eq_keepFirstBy]
  congr 1
  simp

theorem keepFirstBy_filter {K : Type} [DecidableEq K] (key : Row → K) (p : Row → Bool)
    (hp : ∀ a b, key a = key b → p a = p b) (l : List Row) :
    (keepFirstBy key l).filter p = keepFirstBy key (l.filter p) := by
  induction l using keepFirstBy.induct key with
  | case1 => simp [keepFirstBy]
  | case2 r rs ih =>
    rw [keepFirstBy, List.filter_cons, List.filter_cons]
    by_cases hpr : p r = true
    · simp only [hpr, if_true]
      rw [keepFirstBy, ih, List.filter_filter, List.filter_filter]
      have : List.filter (fun a => p a && decide (key a ≠ key r)) rs =
          List.filter (fun a => decide (key a ≠ key r) && p a) rs := by
        apply List.filter_congr
        intro x _
        exact Bool.and_comm _ _
      rw [this]
    · have hpr2 : p r = false := Bool.eq_false_iff.mpr hpr
      simp only [hpr2, Bool.false_eq_true, if_false]
      rw [ih, List.filter_filter]
      congr 1
      apply List.filter_congr
      intro x _
      by_cases hx : p x = true
      · have hne : key x ≠ key r := by
          intro hk
          rw [hp x r hk, hpr2] at hx
          cases hx
        simp [hx, hne]
      · have hx2 : p x = false := Bool.eq_false_iff.mpr hx
        simp [hx2]

theorem keepFirstBy_keepFirstBy {K1 K2 : Type} [DecidableEq K1] [DecidableEq K2]
    (key1 : Row → K1) (key2 : Row → K2)
    (hf : ∀ a b, key1 a = key1 b → key2 a = key2 b) (l : List Row) :
    keepFirstBy key2 (keepFirstBy key1 l) = keepFirstBy key2 l := by
  induction l using keepFirstBy.induct key2 with
  | case1 => simp [keepFirstBy]
  | case2 r rs ih =>
    rw [keepFirstBy, keepFirstBy, keepFirstBy]
    congr 1
    have hcong : ∀ a b, key1 a = key1 b →
        (fun x => decide (key2 x ≠ key2 r)) a = (fun x => decide (key2 x ≠ key2 r)) b := by
      intro a b hab
      simp only [decide_eq_decide]
      rw [hf a b hab]
    rw [keepFirstBy_filter key1 _ hcong]
    have hsub : (rs.filter (fun x => decide (key1 x ≠ key1 r))).filter
        (fun x => decide (key2 x ≠ key2 r)) =
        rs.filter (fun x => decide (key2 x ≠ key2 r)) := by
      rw [List.filter_filter]
      apply List.filter_congr
      intro x _
      by_cases h2 : key2 x = key2 r
      · simp [h2]
      · have h1 : key1 x ≠ key1 r := fun hk => h2 (hf x r hk)
        simp [h1, h2]
    rw [hsub, ih]

theorem keepFirstBy_pairwise {K : Type} [DecidableEq K] (key : Row → K) (l : List Row) :
    (keepFirstBy key l).Pairwise (fun a b => key a ≠ key b) := by
  induction l using keepFirstBy.induct key with
  | case1 => simp [keepFirstBy]
  | case2 r rs ih =>
    rw [keepFirstBy]
    refine List.Pairwise.cons ?_ ih
    intro b hb
    have hb2 := (keepFirstBy_sublist key _).subset hb
    have := List.of_mem_filter hb2
    simp only [decide_eq_true_eq] at this
    exact fun h => this h.symm

theorem keepFirstBy_of_pairwise {K : Type} [DecidableEq K] (key : Row → K) (l : List Row) :
    l.Pairwise (fun a b => key a ≠ key b) → keepFirstBy key l = l := by
  induction l using keepFirstBy.induct key with
  | case1 => intro _; simp [keepFirstBy]
  | case2 r rs ih =>
    intro hp
    rw [keepFirstBy]
    have hall : rs.filter (fun x => decide (key x ≠ key r)) = rs := by
      apply List.filter_eq_self.mpr
      intro a ha
      have := (List.pairwise_cons.mp hp).1 a ha
      simp only [decide_eq_true_eq]
      exact fun hk => this hk.symm
    rw [hall] at ih ⊢
    rw [ih ((List.pairwise_cons.mp hp).2)]

/-- Keep, for each distinct name value, exactly the first row in table
order bearing that name (relative order unchanged): the reference
deduplication, following the wording of the specification. -/
def firstPerName : List Row → List Row
  | [] => []
  | r :: rs => r :: firstPerName (rs.filter (fun x => decide (nameKey x ≠ nameKey r)))
termination_by l => l.length
decreasing_by
  exact Nat.lt_succ_of_le (List.Sublist.length_le (List.filter_sublist _))

theorem firstPerName_eq_keepFirstBy (l : List Row) :
    firstPerName l = keepFirstBy nameKey l := by
  induction l using firstPerName.induct with
  | case1 => simp [firstPerName, keepFirstBy]
  | case2 r rs ih => rw [firstPerName, keepFirstBy, ih]

theorem remove_duplicates_rows_eq (l : List Row) :
    remove_duplicates_rows l = keepFirstBy nameKey l := by
  rw [remove_duplicates_rows, drop_duplicates_eq_keepFirstBy, drop_duplicates_eq_keepFirstBy]
  exact keepFirstBy_keepFirstBy nameSourceKey nameKey
    (fun a b h => congrArg Prod.fst h) l

/-! ## Scoring lemmas -/

theorem foldl_score_eq (c : ℚ) (p : String → Bool) (l : List String) :
    ∀ (a : ℚ),
      l.foldl (fun score f => if p f then score + c else score) a
        = a + c * (l.countP p : ℚ) := by
  induction l with
  | nil => intro a; simp
  | cons f fs ih =>
    intro a
    by_cases hf : p f = true
    · rw [List.foldl_cons, if_pos hf, ih, List.countP_cons, if_pos hf]
      push_cast
      ring
    · have hf2 : p f = false := Bool.eq_false_iff.mpr hf
      rw [List.foldl_cons, if_neg (by simp [hf2]), ih, List.countP_cons, if_neg (by simp [hf2])]
      push_cast
      ring

theorem round2_nonneg {q : ℚ} (h : 0 ≤ q) : 0 ≤ round2 q := by
  unfold round2
  apply div_nonneg _ (by norm_num)
  have h2 : (0 : ℤ) ≤ round (q * 100) := by
    rw [round_eq]
    apply Int.floor_nonneg.mpr
    nlinarith
  exact_mod_cast h2

theorem round2_le_100 {q : ℚ} (h : q ≤ 100) : round2 q ≤ 100 := by
  unfold round2
  rw [div_le_iff₀ (by norm_num)]
  have h2 : round (q * 100) ≤ 10000 := by
    rw [round_eq]
    have h3 : q * 100 + 1 / 2 < (10001 : ℤ) := by push_cast; nlinarith
    have h4 := Int.floor_lt.mpr h3
    omega
  calc ((round (q * 100) : ℤ) : ℚ) ≤ ((10000 : ℤ) : ℚ) := by exact_mod_cast h2
    _ ≤ 100 * 100 := by norm_num

theorem loansQualityScore_eq (cols : List String) (r : Row)
    (h : ∀ f ∈ loanKeyFields, cols.contains f = true) :
    loansQualityScore cols r =
      round2 (100 * (loanKeyFields.countP (fun f => presentVal (r f)) : ℚ) / 5) := by
  unfold loansQualityScore
  rw [foldl_score_eq]
  congr 1
  have hc : loanKeyFields.countP (fun f => cols.contains f && presentVal (r f))
      = loanKeyFields.countP (fun f => presentVal (r f)) := by
    apply List.countP_congr
    intro f hf
    rw [h f hf]
    simp
  rw [hc]
  show (0 : ℚ) + 100 / (loanKeyFields.length : ℚ) * _ = _
  norm_num [loanKeyFields]
  ring

theorem scholQualityScore_eq (r : Row) :
    scholQualityScore r =
      round2 (100 * (scholKeyFields.countP (fun f => presentVal (r f)) : ℚ) / 6) := by
  unfold scholQualityScore
  rw [foldl_score_eq]
  congr 1
  show (0 : ℚ) + 100 / (scholKeyFields.length : ℚ) * _ = _
  norm_num [scholKeyFields]
  ring

theorem score_bounds_aux (k n : ℕ) (hk : k ≤ n) (hn : 0 < n) :
    0 ≤ round2 (100 * (k : ℚ) / n) ∧ round2 (100 * (k : ℚ) / n) ≤ 100 := by
  constructor
  · apply round2_nonneg
    positivity
  · apply round2_le_100
    rw [div_le_iff₀ (by exact_mod_cast hn)]
    have : (k : ℚ) ≤ (n : ℚ) := by exact_mod_cast hk
    nlinarith

/-! ## Claim theorems (first group) -/

/-- C1: for every row at the scoring stage, the data quality score
equals 100 times the count of present key fields divided by the
domain's key-field count (5 for loans, 6 for scholarships), rounded to
two decimal places, where a field counts as present exactly when its
value is neither the sentinel nor null; consequently the score lies in
the interval from 0 to 100. The loans scorer consults the row index,
so its key fields are assumed to be among the columns (which holds at
the scoring stage). -/
theorem claim_C1_quality_score (cols : List String) (r r2 : Row)
    (h : ∀ f ∈ loanKeyFields, cols.contains f = true) :
    (loansQualityScore cols r =
        round2 (100 * (loanKeyFields.countP (fun f => presentVal (r f)) : ℚ) / 5) ∧
      0 ≤ loansQualityScore cols r ∧ loansQualityScore cols r ≤ 100) ∧
    (scholQualityScore r2 =
        round2 (100 * (scholKeyFields.countP (fun f => presentVal (r2 f)) : ℚ) / 6) ∧
      0 ≤ scholQualityScore r2 ∧ scholQualityScore r2 ≤ 100) := by
  have hL := loansQualityScore_eq cols r h
  have hS := scholQualityScore_eq r2
  have hbL := score_bounds_aux (loanKeyFields.countP (fun f => presentVal (r f))) 5
    (by simpa [loanKeyFields] using List.countP_le_length _) (by norm_num)
  have hbS := score_bounds_aux (scholKeyFields.countP (fun f => presentVal (r2 f))) 6
    (by simpa [scholKeyFields] using List.countP_le_length _) (by norm_num)
  refine ⟨⟨hL, ?_, ?_⟩, ⟨hS, ?_, ?_⟩⟩
  · rw [hL]; exact hbL.1
  · rw [hL]; exact hbL.2
  · rw [hS]; exact hbS.1
  · rw [hS]; exact hbS.2

/-- Witness for C1 at a concrete row (all cells missing). -/
theorem claim_C1_quality_score_witness :
    0 ≤ loansQualityScore loanKeyFields (fun _ => none) ∧
      scholQualityScore (fun _ => none) ≤ 100 :=
  ⟨(claim_C1_quality_score loanKeyFields (fun _ => none) (fun _ => none)
      (by decide)).1.2.1,
   (claim_C1_quality_score loanKeyFields (fun _ => none) (fun _ => none)
      (by decide)).2.2.2⟩

/-- C3: the deduplicator keeps, for each distinct name value, exactly
the first row in table order bearing that name, relative order
unchanged (it equals the reference keep-first-per-name recursion and
is a subsequence of the input); it is computed as the two keep-first
passes, first on the pair of name and source, then on name alone; and
it is idempotent. -/
theorem claim_C3_dedup (rows : List Row) :
    remove_duplicates_rows rows = firstPerName rows ∧
    remove_duplicates_rows rows =
      drop_duplicates nameKey (drop_duplicates nameSourceKey rows) ∧
    List.Sublist (remove_duplicates_rows rows) rows ∧
    remove_duplicates_rows (remove_duplicates_rows rows) = remove_duplicates_rows rows := by
  have h1 : remove_duplicates_rows rows = keepFirstBy nameKey rows :=
    remove_duplicates_rows_eq rows
  refine ⟨?_, rfl, ?_, ?_⟩
  · rw [h1, firstPerName_eq_keepFirstBy]
  · rw [h1]; exact keepFirstBy_sublist nameKey rows
  · rw [remove_duplicates_rows_eq (remove_duplicates_rows rows), h1]
    have hpw := keepFirstBy_pairwise nameKey rows
    exact keepFirstBy_of_pairwise nameKey _ hpw

/-- Concrete row from an association list (cells absent from the list
are missing, as for a row of a source that lacks those columns). -/
def rowOf (l : List (String × Text)) : Row :=
  fun k => (l.find? (fun p => p.1 == k)).map (fun p => p.2)

/-- A raw loans input holding only an institution-name column and a
source column, but no canonical name column. -/
def c6Input : DF :=
  ⟨["bank_name", "source"],
   [rowOf [("bank_name", sl "Bank of Ceylon"), ("source", sl "bank_scraper")]]⟩

set_option maxRecDepth 10000 in
set_option maxHeartbeats 1000000 in
/-- C6: on a raw loans input that lacks the canonical name column but
carries a non-sentinel institution-name alias, the reconciler leaves
the sentinel in the name field instead of copying the alias: the
add-missing-columns loop runs first and inserts a name column, so the
alias guard (name column absent) can never fire afterwards. -/
theorem claim_C6_alias_never_copied :
    (loansStandardize c6Input).rows.map (fun r => r "name") = [some (sl "N/A")] ∧
    (loansStandardize c6Input).rows.map (fun r => r "bank_name")
      = [some (sl "Bank of Ceylon")] := by
  constructor
  · decide
  · decide

/-- C9: loading succeeds exactly when at least one source file parses;
an unparsable file is skipped (loading the inputs equals loading just
the parsable ones); and the whole run fails before any stage past
loading exactly when zero inputs loaded. -/
theorem claim_C9_loading (inputs : List (Option DF)) :
    ((loadData inputs).isSome ↔ ∃ x ∈ inputs, x.isSome) ∧
    loadData inputs = loadData ((inputs.filterMap id).map some) ∧
    (loansClean inputs = RunResult.loadFailed ↔ loadData inputs = none) := by
  refine ⟨?_, ?_, ?_⟩
  · unfold loadData
    by_cases h : (inputs.filterMap id).isEmpty
    · simp only [h, if_true]
      constructor
      · intro hs; cases hs
      · rintro ⟨x, hx, hs⟩
        rw [List.isEmpty_iff] at h
        rw [List.filterMap_eq_nil_iff] at h
        have hxn := h x hx
        simp only [id_eq] at hxn
        rw [hxn] at hs
        cases hs
    · simp only [h, if_false]
      constructor
      · intro _
        rw [List.isEmpty_iff] at h
        have h2 : ∃ d, d ∈ inputs.filterMap id := by
          cases hc : inputs.filterMap id with
          | nil => exact absurd hc h
          | cons d ds => exact ⟨d, by simp [hc]⟩
        obtain ⟨d, hd⟩ := h2
        obtain ⟨x, hx, hxd⟩ := List.mem_filterMap.mp hd
        simp only [id_eq] at hxd
        exact ⟨x, hx, by rw [hxd]; rfl⟩
      · intro _; rfl
  · unfold loadData
    have heq : ((inputs.filterMap id).map some).filterMap id = inputs.filterMap id := by
      rw [List.filterMap_map]
      simp [Function.comp]
    rw [heq]
  · unfold loansClean
    cases h : loadData inputs with
    | none => simp
    | some df =>
      simp only
      cases hr : generateReport df.rows.length (loansPipeline df).rows.length with
      | none => simp
      | some q => simp

/-- C10: the removal-rate computation divides by the original record
count with no guard: it is defined exactly when the original count is
nonzero (and then equals the rounded rate), and a run whose loading
succeeded with a concatenated input of zero rows fails at report
generation instead of persisting output. -/
theorem claim_C10_removal_rate :
    (∀ o f : ℕ, (removalRate o f = none ↔ o = 0)) ∧
    (∀ o f : ℕ, 1 ≤ o →
      removalRate o f = some (round2 (((o : ℚ) - (f : ℚ)) / (o : ℚ) * 100))) ∧
    (∀ (inputs : List (Option DF)) (df : DF),
      loadData inputs = some df → df.rows.length = 0 →
      loansClean inputs = RunResult.error) := by
  refine ⟨?_, ?_, ?_⟩
  · intro o f
    unfold removalRate
    by_cases h : o = 0
    · simp [h]
    · simp [h]
  · intro o f h
    unfold removalRate
    rw [if_neg (by omega)]
  · intro inputs df hload hzero
    unfold loansClean
    rw [hload]
    simp only [hzero]
    have : generateReport 0 (loansPipeline df).rows.length = none := by
      unfold generateReport removalRate
      simp
    rw [this]

/-- Witness for C10: a run loading a single parsable but empty frame
fails with an error rather than producing output, and the removal rate
is defined at an original count of two. -/
theorem claim_C10_removal_rate_witness :
    removalRate 2 1 = some (round2 (((2 : ℚ) - (1 : ℚ)) / (2 : ℚ) * 100)) ∧
    loansClean [some emptyDF] = RunResult.error :=
  ⟨claim_C10_removal_rate.2.1 2 1 (by norm_num),
   claim_C10_removal_rate.2.2 [some emptyDF] emptyDF rfl rfl⟩

/-- A scholarship row with a proper name but a sentinel source. -/
def c4Row : Row := rowOf [("name", sl "Test Scholarship"), ("source", sl "N/A")]

/-- C4 counterexample: the scholarship empty-row filter removes a row
whose name is not the sentinel (its source is), contradicting the
claim that the filter removes exactly the rows with sentinel name and
no other rows in both domains. -/
theorem claim_C4_counterexample :
    (scholRemoveEmpty ⟨scholExpectedCols, [c4Row]⟩).rows.length = 0 ∧
    c4Row "name" = some (sl "Test Scholarship") := by
  constructor
  · decide
  · decide

theorem loansFinal_mem (d : DF) (p : Row × ℚ)
    (hp : p ∈ (loansReorder (loansAddDuration (loansAddType (loansAddScore d)))).rows) :
    ∃ r ∈ d.rows, ∀ k : String, k ≠ "loan_type" → k ≠ "loan_duration_category" →
      p.1 k = r k := by
  simp only [loansReorder, loansAddDuration, loansAddType, loansAddScore,
    List.mem_map] at hp
  obtain ⟨q1, ⟨q2, ⟨r, hr, hq2⟩, hq1⟩, hp⟩ := hp
  refine ⟨r, hr, ?_⟩
  intro k hk1 hk2
  rw [← hp, ← hq1, ← hq2]
  simp [updateRow, hk1, hk2]

theorem scholFinal_mem (d : DF) (p : Row × ℚ)
    (hp : p ∈ (scholReorder (scholAddRegion (scholAddType (scholAddScore d)))).rows) :
    ∃ r ∈ d.rows, ∀ k : String, k ≠ "scholarship_type" → k ≠ "eligible_region" →
      p.1 k = r k := by
  simp only [scholReorder, scholAddRegion, scholAddType, scholAddScore,
    List.mem_map] at hp
  obtain ⟨q1, ⟨q2, ⟨r, hr, hq2⟩, hq1⟩, hp⟩ := hp
  refine ⟨r, hr, ?_⟩
  intro k hk1 hk2
  rw [← hp, ← hq1, ← hq2]
  simp [updateRow, hk1, hk2]

theorem loansTail_name (d : DF) (p : Row × ℚ)
    (hp : p ∈ (loansReorder (loansAddDuration (loansAddType (loansAddScore
      (loansRemoveEmpty d))))).rows) :
    p.1 "name" ≠ some (sl "N/A") := by
  obtain ⟨r, hr, hk⟩ := loansFinal_mem _ p hp
  have hname := hk "name" (by decide) (by decide)
  rw [hname]
  have h2 := (List.mem_filter.mp hr).2
  simpa using h2

theorem scholTail_name (d : DF) (p : Row × ℚ)
    (hp : p ∈ (scholReorder (scholAddRegion (scholAddType (scholAddScore
      (scholRemoveEmpty d))))).rows) :
    p.1 "name" ≠ some (sl "N/A") := by
  obtain ⟨r, hr, hk⟩ := scholFinal_mem _ p hp
  have hname := hk "name" (by decide) (by decide)
  rw [hname]
  have h2 := (List.mem_filter.mp hr).2
  simp only [Bool.and_eq_true, Bool.not_eq_true', beq_eq_false_iff_ne] at h2
  exact h2.1

/-- C4 amended: the loans empty-row filter removes exactly the rows
whose name is the sentinel; the scholarship filter removes exactly the
rows whose name or source is the sentinel; in both domains no row with
sentinel name appears in the final output table. -/
theorem claim_C4_amended (df : DF) :
    (∀ r : Row, r ∈ (loansRemoveEmpty df).rows ↔
        r ∈ df.rows ∧ r "name" ≠ some (sl "N/A")) ∧
    (∀ r : Row, r ∈ (scholRemoveEmpty df).rows ↔
        r ∈ df.rows ∧ r "name" ≠ some (sl "N/A") ∧ r "source" ≠ some (sl "N/A")) ∧
    (∀ p : Row × ℚ, p ∈ (loansPipeline df).rows → p.1 "name" ≠ some (sl "N/A")) ∧
    (∀ p : Row × ℚ, p ∈ (scholPipeline df).rows → p.1 "name" ≠ some (sl "N/A")) := by
  refine ⟨?_, ?_, ?_, ?_⟩
  · intro r
    unfold loansRemoveEmpty
    rw [List.mem_filter]
    simp
  · intro r
    unfold scholRemoveEmpty
    rw [List.mem_filter]
    simp [and_assoc]
  · intro p hp
    unfold loansPipeline at hp
    exact loansTail_name _ p hp
  · intro p hp
    unfold scholPipeline at hp
    exact scholTail_name _ p hp

/-- A well-formed scholarship input with one surviving row. -/
def c4GoodDf : DF :=
  ⟨["name", "source"], [rowOf [("name", sl "Good Grant"), ("source", sl "SiteA")]]⟩

/-- Witness for C4 amended: the surviving final row of a concrete run
has a non-sentinel name. -/
theorem claim_C4_amended_witness :
    ((scholPipeline c4GoodDf).rows.get ⟨0, by decide⟩).1 "name" ≠ some (sl "N/A") :=
  (claim_C4_amended c4GoodDf).2.2.2 _ (List.get_mem _ _ _)

/-- C7: the five concrete extractor equations of the specification. -/
theorem claim_C7_extractor_examples :
    extract_amount (some (sl "Rs. 1,200,000 maximum")) = sl "Rs. 1200000" ∧
    extract_period (some (sl "5 years")) = sl "5 years" ∧
    extract_age (some (sl "18 to 65 years")) = sl "18-65 years" ∧
    extract_rate (some (sl "12% per annum")) = sl "12%" ∧
    extract_rate (some (sl "Interest-free for first year")) = sl "Interest-Free" :=
  ⟨by decide, by decide, by decide, by decide, by decide⟩

/-! ## Schema reconciliation lemmas (C5, C6) -/

theorem addColIfMissing_cols_mem (df : DF) (c x : String) :
    x ∈ (addColIfMissing df c).cols ↔ x ∈ df.cols ∨ x = c := by
  unfold addColIfMissing
  by_cases h : df.cols.contains c = true
  · rw [if_pos h]
    have hc : c ∈ df.cols := by simpa using h
    constructor
    · exact fun hx => Or.inl hx
    · rintro (hx | hx)
      · exact hx
      · rw [hx]; exact hc
  · rw [if_neg h]
    simp [List.mem_append]

theorem addMissingCols_cols_mem (expected : List String) (df : DF) (x : String) :
    x ∈ (addMissingCols expected df).cols ↔ x ∈ df.cols ∨ x ∈ expected := by
  induction expected generalizing df with
  | nil => simp [addMissingCols]
  | cons e es ih =>
    show x ∈ (addMissingCols es (addColIfMissing df e)).cols ↔ _
    rw [ih, addColIfMissing_cols_mem]
    constructor
    · rintro ((hx | hx) | hx)
      · exact Or.inl hx
      · exact Or.inr (by rw [hx]; exact List.mem_cons_self _ _)
      · exact Or.inr (List.mem_cons_of_mem _ hx)
    · rintro (hx | hx)
      · exact Or.inl (Or.inl hx)
      · rcases List.mem_cons.mp hx with hx | hx
        · exact Or.inl (Or.inr hx)
        · exact Or.inr hx

/-- The cell of the row at a given index (missing rows give a missing
cell), used to state per-row preservation across stages. -/
def cellAt (df : DF) (i : ℕ) (c : String) : Val :=
  match df.rows[i]? with
  | some r => r c
  | none => none

theorem addColIfMissing_cell_of_mem (df : DF) (c e : String) (hc : c ∈ df.cols)
    (i : ℕ) : cellAt (addColIfMissing df e) i c = cellAt df i c := by
  unfold addColIfMissing
  by_cases h : df.cols.contains e = true
  · rw [if_pos h]
  · rw [if_neg h]
    have hne : e ≠ c := by
      intro he
      rw [he] at h
      exact h (by simpa using hc)
    unfold cellAt
    simp only [List.getElem?_map]
    cases df.rows[i]? with
    | none => rfl
    | some r =>
      show (updateRow r e (some (sl "N/A"))) c = r c
      simp only [updateRow]
      rw [if_neg (fun h2 => hne h2.symm)]

theorem addMissingCols_cell_of_mem (expected : List String) (df : DF) (c : String)
    (hc : c ∈ df.cols) (i : ℕ) :
    cellAt (addMissingCols expected df) i c = cellAt df i c := by
  induction expected generalizing df with
  | nil => rfl
  | cons e es ih =>
    show cellAt (addMissingCols es (addColIfMissing df e)) i c = _
    rw [ih (addColIfMissing df e) ((addColIfMissing_cols_mem df e c).mpr (Or.inl hc)),
      addColIfMissing_cell_of_mem df c e hc]

theorem addMissingCols_fills (expected : List String) (df : DF) (c : String)
    (hce : c ∈ expected) (hc : ¬ c ∈ df.cols) (i : ℕ) (hi : i < df.rows.length) :
    cellAt (addMissingCols expected df) i c = some (sl "N/A") := by
  induction expected generalizing df with
  | nil => cases hce
  | cons e es ih =>
    show cellAt (addMissingCols es (addColIfMissing df e)) i c = _
    by_cases hec : e = c
    · subst hec
      have hadd : addColIfMissing df e = ⟨df.cols ++ [e],
          df.rows.map (fun r => updateRow r e (some (sl "N/A")))⟩ := by
        unfold addColIfMissing
        rw [if_neg (by simpa using hc)]
      have hmem : e ∈ (addColIfMissing df e).cols := by
        rw [hadd]
        simp
      rw [addMissingCols_cell_of_mem es _ e hmem, hadd]
      unfold cellAt
      simp only [List.getElem?_map]
      cases hr : df.rows[i]? with
      | none =>
        have hle := List.getElem?_eq_none_iff.mp hr
        omega
      | some r => simp [updateRow]
    · rcases List.mem_cons.mp hce with hx | hx
      · exact absurd hx.symm hec
      · have hc2 : ¬ c ∈ (addColIfMissing df e).cols := by
          rw [addColIfMissing_cols_mem]
          rintro (h | h)
          · exact hc h
          · exact hec h.symm
        have hlen : (addColIfMissing df e).rows.length = df.rows.length := by
          unfold addColIfMissing
          split
          · rfl
          · simp
        exact ih (addColIfMissing df e) hx hc2 (by rw [hlen]; exact hi)

theorem loansStandardize_eq (df : DF) :
    loansStandardize df =
      (if (addMissingCols loansAllExpected df).cols.contains "loan_product_name"
          && (addMissingCols loansAllExpected df).rows.all (fun r => (r "name").isNone)
        then copyCol "name" "loan_product_name" (addMissingCols loansAllExpected df)
        else addMissingCols loansAllExpected df) := by
  unfold loansStandardize
  have h1 : (addMissingCols loansAllExpected df).cols.contains "name" = true := by
    have : "name" ∈ (addMissingCols loansAllExpected df).cols := by
      rw [addMissingCols_cols_mem]; right; decide
    simpa using this
  have h4 : (addMissingCols loansAllExpected df).cols.contains "contact" = true := by
    have : "contact" ∈ (addMissingCols loansAllExpected df).cols := by
      rw [addMissingCols_cols_mem]; right; decide
    simpa using this
  have h5 : (addMissingCols loansAllExpected df).cols.contains "application_url" = true := by
    have : "application_url" ∈ (addMissingCols loansAllExpected df).cols := by
      rw [addMissingCols_cols_mem]; right; decide
    simpa using this
  have hcp : ∀ (dst src : String) (x : DF), (copyCol dst src x).cols = x.cols := by
    intro dst src x; rfl
  split_ifs with g1 g2 g3 g4 <;>
    simp_all [hcp, apply_ite DF.cols]

theorem copyCol_cols (dst src : String) (x : DF) : (copyCol dst src x).cols = x.cols := rfl

theorem copyCol_rows (dst src : String) (x : DF) :
    (copyCol dst src x).rows = x.rows.map (fun r => updateRow r dst (r src)) := rfl

theorem loansStandardize_cols_mem (df : DF) (x : String) :
    x ∈ (loansStandardize df).cols ↔ x ∈ df.cols ∨ x ∈ loansAllExpected := by
  rw [loansStandardize_eq]
  generalize ((addMissingCols loansAllExpected df).cols.contains "loan_product_name"
      && (addMissingCols loansAllExpected df).rows.all (fun r => (r "name").isNone)) = b
  cases b
  · rw [if_neg (by simp)]
    exact addMissingCols_cols_mem _ _ _
  · rw [if_pos rfl, copyCol_cols]
    exact addMissingCols_cols_mem _ _ _

theorem addMissingCols_rows_length (expected : List String) (df : DF) :
    (addMissingCols expected df).rows.length = df.rows.length := by
  induction expected generalizing df with
  | nil => rfl
  | cons e es ih =>
    show (addMissingCols es (addColIfMissing df e)).rows.length = _
    rw [ih (addColIfMissing df e)]
    unfold addColIfMissing
    split
    · rfl
    · simp

theorem addMissingCols_fills_mem (expected : List String) (df : DF) (c : String)
    (hce : c ∈ expected) (hc : ¬ c ∈ df.cols) :
    ∀ r ∈ (addMissingCols expected df).rows, r c = some (sl "N/A") := by
  intro r hr
  obtain ⟨i, hi⟩ := List.mem_iff_getElem?.mp hr
  have hlt : i < (addMissingCols expected df).rows.length := by
    by_contra hge
    rw [List.getElem?_eq_none_iff.mpr (by omega)] at hi
    cases hi
  rw [addMissingCols_rows_length] at hlt
  have := addMissingCols_fills expected df c hce hc i hlt
  unfold cellAt at this
  rw [hi] at this
  exact this

theorem loansStandardize_fills (df : DF) (c : String) (hce : c ∈ loansAllExpected)
    (hc : ¬ c ∈ df.cols) :
    ∀ r ∈ (loansStandardize df).rows, r c = some (sl "N/A") := by
  have hfill := addMissingCols_fills_mem loansAllExpected df c hce hc
  rw [loansStandardize_eq]
  generalize hb : ((addMissingCols loansAllExpected df).cols.contains "loan_product_name"
      && (addMissingCols loansAllExpected df).rows.all (fun r => (r "name").isNone)) = b
  cases b
  · rw [if_neg (by simp)]
    exact hfill
  · rw [if_pos rfl]
    intro r2 hr2
    rw [copyCol_rows] at hr2
    obtain ⟨r, hr, hmap⟩ := List.mem_map.mp hr2
    by_cases hcn : c = "name"
    · subst hcn
      have hall : (addMissingCols loansAllExpected df).rows.all
          (fun r => (r "name").isNone) = true := (Bool.and_eq_true _ _ |>.mp hb).2
      have h2 := (List.all_eq_true.mp hall) r hr
      rw [hfill r hr] at h2
      cases h2
    · rw [← hmap]
      show updateRow r "name" (r "loan_product_name") c = some (sl "N/A")
      unfold updateRow
      rw [if_neg hcn]
      exact hfill r hr

theorem scholStandardize_cols (df : DF) :
    (scholStandardize df).cols = scholExpectedCols := rfl

theorem restrictCols_rows (keep : List String) (x : DF) :
    (restrictCols keep x).rows = x.rows.map
      (fun r => fun k => if keep.contains k = true then r k else none) := rfl

theorem scholStandardize_fills (df : DF) (c : String) (hce : c ∈ scholExpectedCols)
    (hc : ¬ c ∈ df.cols) :
    ∀ r ∈ (scholStandardize df).rows, r c = some (sl "N/A") := by
  have hfill := addMissingCols_fills_mem scholExpectedCols df c hce hc
  intro r2 hr2
  unfold scholStandardize at hr2
  rw [restrictCols_rows] at hr2
  obtain ⟨r, hr, hmap⟩ := List.mem_map.mp hr2
  rw [← hmap]
  show (if scholExpectedCols.contains c = true then r c else none) = some (sl "N/A")
  rw [if_pos (by simpa using hce)]
  exact hfill r hr

theorem scholStandardize_cell (df : DF) (c : String) (i : ℕ) (hc : c ∈ df.cols)
    (hce : c ∈ scholExpectedCols) :
    cellAt (scholStandardize df) i c = cellAt df i c := by
  have h1 := addMissingCols_cell_of_mem scholExpectedCols df c hc i
  unfold cellAt at h1 ⊢
  unfold scholStandardize
  rw [restrictCols_rows, List.getElem?_map]
  cases hr : (addMissingCols scholExpectedCols df).rows[i]? with
  | none =>
    rw [hr] at h1
    exact h1
  | some r =>
    rw [hr] at h1
    show (if scholExpectedCols.contains c = true then r c else none) = _
    rw [if_pos (by simpa using hce)]
    exact h1

theorem concatAll_rows (dfs : List DF) :
    (concatAll dfs).rows = (dfs.map DF.rows).flatten := by
  have hfold : ∀ (ds : List DF) (a : DF),
      (ds.foldl concatDF a).rows = a.rows ++ (ds.map DF.rows).flatten := by
    intro ds
    induction ds with
    | nil => intro a; simp
    | cons d ds ih =>
      intro a
      show ((ds.foldl concatDF (concatDF a d))).rows = _
      rw [ih (concatDF a d)]
      show (a.rows ++ d.rows) ++ _ = _
      simp
  cases dfs with
  | nil => rfl
  | cons d ds =>
    show (ds.foldl concatDF d).rows = _
    rw [hfold ds d]
    simp

theorem concatAll_cols_mem (dfs : List DF) (x : String) :
    x ∈ (concatAll dfs).cols ↔ ∃ df ∈ dfs, x ∈ df.cols := by
  have hunion : ∀ (a b : DF), x ∈ (concatDF a b).cols ↔ x ∈ a.cols ∨ x ∈ b.cols := by
    intro a b
    show x ∈ a.cols ++ b.cols.filter (fun c => !(a.cols.contains c)) ↔ _
    rw [List.mem_append, List.mem_filter]
    constructor
    · rintro (h | ⟨h, _⟩)
      · exact Or.inl h
      · exact Or.inr h
    · rintro (h | h)
      · exact Or.inl h
      · by_cases ha : x ∈ a.cols
        · exact Or.inl ha
        · exact Or.inr ⟨h, by simpa using ha⟩
  have hfold : ∀ (ds : List DF) (a : DF),
      x ∈ ((ds.foldl concatDF a)).cols ↔ x ∈ a.cols ∨ ∃ d ∈ ds, x ∈ d.cols := by
    intro ds
    induction ds with
    | nil => intro a; simp [List.foldl]
    | cons d ds ih =>
      intro a
      show x ∈ ((ds.foldl concatDF (concatDF a d))).cols ↔ _
      rw [ih (concatDF a d), hunion a d]
      constructor
      · rintro ((h | h) | ⟨e, he, hx⟩)
        · exact Or.inl h
        · exact Or.inr ⟨d, List.mem_cons_self _ _, h⟩
        · exact Or.inr ⟨e, List.mem_cons_of_mem _ he, hx⟩
      · rintro (h | ⟨e, he, hx⟩)
        · exact Or.inl (Or.inl h)
        · rcases List.mem_cons.mp he with h2 | h2
          · subst h2; exact Or.inl (Or.inr hx)
          · exact Or.inr ⟨e, h2, hx⟩
  cases dfs with
  | nil => simp [concatAll, emptyDF]
  | cons d ds =>
    show x ∈ ((ds.foldl concatDF d)).cols ↔ _
    rw [hfold ds d]
    constructor
    · rintro (h | ⟨e, he, hx⟩)
      · exact ⟨d, List.mem_cons_self _ _, h⟩
      · exact ⟨e, List.mem_cons_of_mem _ he, hx⟩
    · rintro ⟨e, he, hx⟩
      rcases List.mem_cons.mp he with h2 | h2
      · subst h2; exact Or.inl hx
      · exact Or.inr ⟨e, h2, hx⟩

/-- A scholarship source with a column outside the expected set. -/
def c5ScholSrc : DF :=
  ⟨["name", "source", "extra_info"],
   [rowOf [("name", sl "X Grant"), ("source", sl "S"), ("extra_info", sl "keep me")]]⟩

/-- A loans source carrying an extra column. -/
def c5LoanA : DF :=
  ⟨["name", "extra"], [rowOf [("name", sl "A"), ("extra", sl "v")]]⟩

/-- A loans source lacking that extra column. -/
def c5LoanB : DF := ⟨["name"], [rowOf [("name", sl "B")]]⟩

set_option maxRecDepth 10000 in
set_option maxHeartbeats 1000000 in
/-- C5 counterexample: the scholarship reconciler drops a source column
(so the reconciled column set is not the union of source schemas plus
the canonical list), and in the loans reconciler a field absent for a
row whose column another source does carry stays null instead of being
filled with the sentinel. -/
theorem claim_C5_counterexample :
    ("extra_info" ∈ (concatAll [c5ScholSrc]).cols ∧
      ¬ "extra_info" ∈ (scholStandardize (concatAll [c5ScholSrc])).cols) ∧
    ("extra" ∈ (concatAll [c5LoanA, c5LoanB]).cols ∧
      ((loansStandardize (concatAll [c5LoanA, c5LoanB])).rows.getD 1 (fun _ => none)) "extra"
        = none) := by
  refine ⟨⟨?_, ?_⟩, ?_, ?_⟩ <;> decide

/-- C5 amended: rows are concatenated in source order; the loans
reconciled column set is the union of the source schemas and the
expected-column list, while the scholarship reconciled column set is
exactly the expected-column list (other source columns are dropped); a
field whose column appears in no source is filled with the sentinel
for every row, while the cell of a column that is present in the frame
passes through the scholarship reconciler unchanged (in particular a
row-level gap in a column that only another source carries stays
null). -/
theorem claim_C5_amended :
    (∀ (dfs : List DF) (x : String),
        x ∈ (loansStandardize (concatAll dfs)).cols ↔
          (∃ df ∈ dfs, x ∈ df.cols) ∨ x ∈ loansAllExpected) ∧
    (∀ (dfs : List DF), (scholStandardize (concatAll dfs)).cols = scholExpectedCols) ∧
    (∀ (dfs : List DF), (concatAll dfs).rows = (dfs.map DF.rows).flatten) ∧
    (∀ (df : DF) (c : String), c ∈ loansAllExpected → ¬ c ∈ df.cols →
        ∀ r ∈ (loansStandardize df).rows, r c = some (sl "N/A")) ∧
    (∀ (df : DF) (c : String), c ∈ scholExpectedCols → ¬ c ∈ df.cols →
        ∀ r ∈ (scholStandardize df).rows, r c = some (sl "N/A")) ∧
    (∀ (df : DF) (c : String) (i : ℕ), c ∈ df.cols → c ∈ scholExpectedCols →
        cellAt (scholStandardize df) i c = cellAt df i c) := by
  refine ⟨?_, ?_, ?_, ?_, ?_, ?_⟩
  · intro dfs x
    rw [loansStandardize_cols_mem, concatAll_cols_mem]
  · intro dfs
    exact scholStandardize_cols _
  · exact concatAll_rows
  · exact loansStandardize_fills
  · exact scholStandardize_fills
  · intro df c i h1 h2
    exact scholStandardize_cell df c i h1 h2

/-- A loans source with only a source column. -/
def c5WitnessDf : DF := ⟨["source"], [rowOf [("source", sl "s")]]⟩

set_option maxRecDepth 10000 in
set_option maxHeartbeats 1000000 in
/-- Witness for C5 amended: the name cell of the reconciled row of a
source without a name column is the sentinel. -/
theorem claim_C5_amended_witness :
    ((loansStandardize c5WitnessDf).rows.get ⟨0, by decide⟩) "name" = some (sl "N/A") :=
  claim_C5_amended.2.2.2.1 c5WitnessDf "name" (by decide) (by decide) _ (List.get_mem _ _ _)

/-! ## String lemmas for the extractor output shape -/

theorem mem_dropWhile_of_neg {p : Char → Bool} {c : Char} :
    ∀ {l : Text}, c ∈ l → p c = false → c ∈ l.dropWhile p := by
  intro l
  induction l with
  | nil => intro h; cases h
  | cons a t ih =>
    intro hc hp
    by_cases ha : p a = true
    · rw [List.dropWhile_cons_of_pos ha]
      rcases List.mem_cons.mp hc with h | h
      · rw [h] at hp; rw [hp] at ha; cases ha
      · exact ih h hp
    · rw [List.dropWhile_cons_of_neg ha]
      exact hc

theorem mem_pyStrip {c : Char} {l : Text} (hc : c ∈ l) (hp : isPySpace c = false) :
    c ∈ pyStrip l := by
  unfold pyStrip
  rw [List.mem_reverse]
  apply mem_dropWhile_of_neg _ hp
  rw [List.mem_reverse]
  exact mem_dropWhile_of_neg hc hp

theorem pyStrip_ne_nil {c : Char} {l : Text} (hc : c ∈ l) (hp : isPySpace c = false) :
    pyStrip l ≠ [] :=
  List.ne_nil_of_mem (mem_pyStrip hc hp)

theorem isPrefixOf_subset : ∀ {k s : Text}, k.isPrefixOf s = true → ∀ c ∈ k, c ∈ s := by
  intro k
  induction k with
  | nil => intro s _ c hc; cases hc
  | cons a k2 ih =>
    intro s h c hc
    cases s with
    | nil => cases h
    | cons b s2 =>
      rw [List.isPrefixOf_cons₂] at h
      have hab : a = b := by
        have := (Bool.and_eq_true _ _).mp h |>.1
        simpa using this
      have hrest := (Bool.and_eq_true _ _).mp h |>.2
      rcases List.mem_cons.mp hc with h2 | h2
      · rw [h2, hab]; exact List.mem_cons_self _ _
      · exact List.mem_cons_of_mem _ (ih hrest c h2)

theorem containsSubstr_subset : ∀ {s k : Text}, containsSubstr s k = true → ∀ c ∈ k, c ∈ s := by
  intro s
  induction s with
  | nil =>
    intro k h c hc
    unfold containsSubstr at h
    simp only [Bool.or_eq_true] at h
    rcases h with h | h
    · exact isPrefixOf_subset h c hc
    · cases h
  | cons a t ih =>
    intro k h c hc
    unfold containsSubstr at h
    simp only [Bool.or_eq_true] at h
    rcases h with h | h
    · exact isPrefixOf_subset h c hc
    · exact List.mem_cons_of_mem _ (ih h c hc)

theorem space_toLower {c : Char} (h : isPySpace c = true) : c.toLower = c := by
  unfold isPySpace at h
  simp only [Bool.or_eq_true, decide_eq_true_eq] at h
  rcases h with ((((h | h) | h) | h) | h) | h <;> (rw [h]; decide)

theorem kw_strip_ne_nil {t k : Text} (hk : containsSubstr (toLowerL t) k = true)
    (hc : ∃ c ∈ k, isPySpace c = false) : pyStrip t ≠ [] := by
  obtain ⟨c, hck, hcs⟩ := hc
  have hmem := containsSubstr_subset hk c hck
  unfold toLowerL at hmem
  obtain ⟨c2, hc2t, hlow⟩ := List.mem_map.mp hmem
  have hc2 : isPySpace c2 = false := by
    by_contra hcon
    have h2 : isPySpace c2 = true := by
      cases hq : isPySpace c2
      · exact absurd hq hcon
      · rfl
    rw [space_toLower h2] at hlow
    rw [hlow] at h2
    rw [h2] at hcs
    cases hcs
  exact pyStrip_ne_nil hc2t hc2

theorem contains_mem {t : Text} {c : Char} (h : t.contains c = true) : c ∈ t := by
  simpa using h

/-! ## Extractor output shapes -/

theorem extractAmountWith_ne_nil (kws : List Text)
    (hkws : ∀ k ∈ kws, ∃ c ∈ k, isPySpace c = false) (v : Val) :
    extractAmountWith kws v ≠ [] := by
  cases v with
  | none => simp [extractAmountWith, sl]
  | some t =>
    simp only [extractAmountWith]
    split
    · simp [sl]
    · split
      · simp [sl]
      · split
        · apply pyStrip_ne_nil (contains_mem (by assumption))
          decide
        · split
          · rename_i hany
            obtain ⟨k, hk, hck⟩ := List.any_eq_true.mp hany
            exact kw_strip_ne_nil hck (hkws k hk)
          · split
            · simp [sl]
            · assumption

theorem extract_amount_ne_nil (v : Val) : extract_amount v ≠ [] := by
  apply extractAmountWith_ne_nil
  intro k hk
  fin_cases hk <;>
    first
      | exact ⟨'v', by decide, by decide⟩
      | exact ⟨'b', by decide, by decide⟩
      | exact ⟨'u', by decide, by decide⟩
      | exact ⟨'m', by decide, by decide⟩

theorem schol_extract_amount_ne_nil (v : Val) : schol_extract_amount v ≠ [] := by
  apply extractAmountWith_ne_nil
  intro k hk
  fin_cases hk <;>
    first
      | exact ⟨'v', by decide, by decide⟩
      | exact ⟨'b', by decide, by decide⟩
      | exact ⟨'u', by decide, by decide⟩
      | exact ⟨'m', by decide, by decide⟩

theorem append_ne_nil_right {a b : Text} (hb : b ≠ []) : a ++ b ≠ [] := by
  intro h
  rw [List.append_eq_nil] at h
  exact hb h.2

theorem extract_period_ne_nil (v : Val) : extract_period v ≠ [] := by
  cases v with
  | none => simp [extract_period, sl]
  | some t =>
    simp only [extract_period]
    split
    · simp [sl]
    · split
      · exact append_ne_nil_right (by decide)
      · split
        · exact append_ne_nil_right (by decide)
        · split
          · exact append_ne_nil_right (by decide)
          · split
            · simp [sl]
            · assumption

theorem extract_rate_ne_nil (v : Val) : extract_rate v ≠ [] := by
  cases v with
  | none => simp [extract_rate, sl]
  | some t =>
    simp only [extract_rate]
    split
    · simp [sl]
    · split
      · exact append_ne_nil_right (by decide)
      · split
        · simp [sl]
        · split
          · rename_i hor
            rcases Bool.or_eq_true _ _ |>.mp hor with h | h
            · exact kw_strip_ne_nil h ⟨'c', by decide, by decide⟩
            · exact kw_strip_ne_nil h ⟨'m', by decide, by decide⟩
          · split
            · simp [sl]
            · assumption

theorem extract_age_ne_nil (v : Val) : extract_age v ≠ [] := by
  cases v with
  | none => simp [extract_age, sl]
  | some t =>
    simp only [extract_age]
    split
    · simp [sl]
    · split
      · exact append_ne_nil_right (by decide)
      · split
        · exact append_ne_nil_right (by decide)
        · split
          · simp [sl]
          · assumption

theorem searchWith_some {α : Type} (m : Text → Option α) :
    ∀ {l : Text} {g : α}, searchWith m l = some g → ∃ s, m s = some g := by
  intro l
  induction l with
  | nil => intro g h; exact ⟨[], h⟩
  | cons c t ih =>
    intro g h
    unfold searchWith at h
    split at h
    · exact ⟨c :: t, by rw [← h]; assumption⟩
    · exact ih h

theorem matchD12_fst_ne_nil {l : Text} {d r : Text} (h : matchD12 l = some (d, r)) :
    d ≠ [] := by
  unfold matchD12 at h
  split at h
  · split at h
    · split at h
      · split at h
        · cases h; simp
        · cases h; simp
      · cases h; simp
    · cases h
  · cases h

theorem matchNumDateAt_ne_nil {l g : Text} (h : matchNumDateAt l = some g) : g ≠ [] := by
  unfold matchNumDateAt at h
  dsimp only [] at h
  repeat' split at h
  all_goals
    first
      | (cases h; apply append_ne_nil_right; simp)
      | cases h

theorem matchMonthNameDateAt_ne_nil {months : List Text} {l g : Text}
    (h : matchMonthNameDateAt months l = some g) : g ≠ [] := by
  unfold matchMonthNameDateAt at h
  dsimp only [] at h
  split at h
  · cases h
  · rename_i p heq
    repeat' split at h
    all_goals
      first
        | (cases h
           intro hcon
           simp only [List.append_eq_nil] at hcon
           exact (matchD12_fst_ne_nil heq) hcon.1.1.1.1)
        | cases h

theorem extract_deadline_date_ne_nil (v : Val) : extract_deadline_date v ≠ [] := by
  cases v with
  | none => simp [extract_deadline_date, sl]
  | some t =>
    simp only [extract_deadline_date]
    split
    · simp [sl]
    · split
      · rename_i g hg
        obtain ⟨s, hs⟩ := searchWith_some _ hg
        exact matchNumDateAt_ne_nil hs
      · split
        · rename_i g hg
          obtain ⟨s, hs⟩ := searchWith_some _ hg
          exact matchMonthNameDateAt_ne_nil hs
        · split
          · rename_i g hg
            obtain ⟨s, hs⟩ := searchWith_some _ hg
            exact matchMonthNameDateAt_ne_nil hs
          · split
            · rename_i hany
              obtain ⟨k, hk, hck⟩ := List.any_eq_true.mp hany
              apply kw_strip_ne_nil hck
              fin_cases hk <;>
                first
                  | exact ⟨'w', by decide, by decide⟩
                  | exact ⟨'m', by decide, by decide⟩
                  | exact ⟨'d', by decide, by decide⟩
                  | exact ⟨'h', by decide, by decide⟩
            · split
              · simp [sl]
              · split
                · simp [sl]
                · assumption

/-! ## Stage equations and value plumbing (C2) -/

theorem mapCol_rows (k : String) (f : Val → Val) (df : DF) :
    (mapCol k f df).rows = df.rows.map (fun r => updateRow r k (f (r k))) := rfl

theorem mapCol_cols (k : String) (f : Val → Val) (df : DF) :
    (mapCol k f df).cols = df.cols := rfl

theorem cleanTextCols_cols : ∀ (L : List String) (df : DF),
    (cleanTextCols L df).cols = df.cols := by
  intro L
  induction L with
  | nil => intro df; rfl
  | cons c cs ih =>
    intro df
    show (cleanTextCols cs (if df.cols.contains c = true then mapCol c cleanTextVal df
      else df)).cols = df.cols
    rw [ih]
    split
    · rfl
    · rfl

theorem loansRemoveDuplicates_cols (df : DF) :
    (loansRemoveDuplicates df).cols = df.cols := rfl

theorem loansExtractAmounts_eq (df : DF)
    (h1 : df.cols.contains "funding_amount" = true)
    (h2 : df.cols.contains "maximum_loan_amount" = true)
    (h3 : df.cols.contains "minimum_loan_amount" = true) :
    loansExtractAmounts df =
      mapCol "minimum_loan_amount" (fun v => some (extract_amount v))
        (mapCol "maximum_loan_amount" (fun v => some (extract_amount v))
          (mapCol "funding_amount" (fun v => some (extract_amount v)) df)) := by
  unfold loansExtractAmounts loansAmountCols
  dsimp only [List.foldl]
  rw [if_pos h1]
  rw [if_pos (show (mapCol "funding_amount" (fun v => some (extract_amount v))
    df).cols.contains "maximum_loan_amount" = true from h2)]
  rw [if_pos (show (mapCol "maximum_loan_amount" (fun v => some (extract_amount v))
    (mapCol "funding_amount" (fun v => some (extract_amount v))
      df)).cols.contains "minimum_loan_amount" = true from h3)]

theorem loansExtractPeriod_eq (df : DF)
    (h : df.cols.contains "repayment_period" = true) :
    loansExtractPeriod df = mapCol "repayment_period" (fun v => some (extract_period v)) df := by
  unfold loansExtractPeriod
  rw [if_pos h]

theorem loansExtractRate_eq (df : DF) (h : df.cols.contains "interest_rate" = true) :
    loansExtractRate df = mapCol "interest_rate" (fun v => some (extract_rate v)) df := by
  unfold loansExtractRate
  rw [if_pos h]

theorem loansExtractAge_eq (df : DF) (h : df.cols.contains "age_criteria" = true) :
    loansExtractAge df = mapCol "age_criteria" (fun v => some (extract_age v)) df := by
  unfold loansExtractAge
  rw [if_pos h]

theorem loansCleanElig_eq (df : DF) (h : df.cols.contains "eligibility" = true) :
    loansCleanElig df = mapCol "eligibility" (fun v => some (cleanEligVal v)) df := by
  unfold loansCleanElig
  rw [if_pos h]

theorem mem_mapCol {k : String} {f : Val → Val} {d : DF} {r2 : Row}
    (h : r2 ∈ (mapCol k f d).rows) :
    ∃ r ∈ d.rows, r2 = updateRow r k (f (r k)) := by
  rw [mapCol_rows] at h
  obtain ⟨r, hr, heq⟩ := List.mem_map.mp h
  exact ⟨r, hr, heq.symm⟩

theorem scholMid_shape (Y : DF) :
    ∀ r2 ∈ (scholCleanElig (scholExtractDeadline (scholExtractFunding Y))).rows,
      ∃ r ∈ Y.rows,
        r2 "funding_amount" = some (schol_extract_amount (r "funding_amount")) ∧
        r2 "deadline" = some (extract_deadline_date (r "deadline")) ∧
        r2 "eligibility" = some (cleanEligVal (r "eligibility")) := by
  intro r2 hr2
  obtain ⟨ra, hra, hea⟩ := mem_mapCol hr2
  obtain ⟨rb, hrb, heb⟩ := mem_mapCol hra
  obtain ⟨rc, hrc, hec⟩ := mem_mapCol hrb
  refine ⟨rc, hrc, ?_, ?_, ?_⟩
  · rw [hea, heb, hec]
    simp [updateRow]
  · rw [hea, heb, hec]
    simp [updateRow]
  · rw [hea, heb, hec]
    simp [updateRow]

theorem loansExtractAmounts_cols (d : DF) : (loansExtractAmounts d).cols = d.cols := by
  unfold loansExtractAmounts loansAmountCols
  dsimp only [List.foldl]
  split <;> split <;> split <;> rfl

theorem loansExtractPeriod_cols (d : DF) (h : d.cols.contains "repayment_period" = true) :
    (loansExtractPeriod d).cols = d.cols := by
  rw [loansExtractPeriod_eq d h]
  rfl

theorem loansExtractRate_cols (d : DF) : (loansExtractRate d).cols = d.cols := by
  unfold loansExtractRate
  split <;> rfl

theorem loansExtractAge_cols (d : DF) : (loansExtractAge d).cols = d.cols := by
  unfold loansExtractAge
  split <;> rfl

theorem mem_loansExtractPeriod {d : DF} {r2 : Row}
    (h : d.cols.contains "repayment_period" = true)
    (hr : r2 ∈ (loansExtractPeriod d).rows) :
    ∃ r ∈ d.rows,
      r2 = updateRow r "repayment_period" (some (extract_period (r "repayment_period"))) := by
  rw [loansExtractPeriod_eq d h] at hr
  exact mem_mapCol hr

theorem mem_loansExtractRate {d : DF} {r2 : Row}
    (h : d.cols.contains "interest_rate" = true)
    (hr : r2 ∈ (loansExtractRate d).rows) :
    ∃ r ∈ d.rows,
      r2 = updateRow r "interest_rate" (some (extract_rate (r "interest_rate"))) := by
  rw [loansExtractRate_eq d h] at hr
  exact mem_mapCol hr

theorem mem_loansExtractAge {d : DF} {r2 : Row}
    (h : d.cols.contains "age_criteria" = true)
    (hr : r2 ∈ (loansExtractAge d).rows) :
    ∃ r ∈ d.rows,
      r2 = updateRow r "age_criteria" (some (extract_age (r "age_criteria"))) := by
  rw [loansExtractAge_eq d h] at hr
  exact mem_mapCol hr

theorem mem_loansCleanElig {d : DF} {r2 : Row}
    (h : d.cols.contains "eligibility" = true)
    (hr : r2 ∈ (loansCleanElig d).rows) :
    ∃ r ∈ d.rows,
      r2 = updateRow r "eligibility" (some (cleanEligVal (r "eligibility"))) := by
  rw [loansCleanElig_eq d h] at hr
  exact mem_mapCol hr

theorem loansMid_shape (Y : DF)
    (h1 : Y.cols.contains "funding_amount" = true)
    (h2 : Y.cols.contains "maximum_loan_amount" = true)
    (h3 : Y.cols.contains "minimum_loan_amount" = true)
    (h4 : Y.cols.contains "repayment_period" = true)
    (h5 : Y.cols.contains "interest_rate" = true)
    (h6 : Y.cols.contains "age_criteria" = true)
    (h7 : Y.cols.contains "eligibility" = true) :
    ∀ r2 ∈ (loansCleanElig (loansExtractAge (loansExtractRate (loansExtractPeriod
        (loansExtractAmounts Y))))).rows,
      ∃ r ∈ Y.rows,
        r2 "funding_amount" = some (extract_amount (r "funding_amount")) ∧
        r2 "maximum_loan_amount" = some (extract_amount (r "maximum_loan_amount")) ∧
        r2 "minimum_loan_amount" = some (extract_amount (r "minimum_loan_amount")) ∧
        r2 "repayment_period" = some (extract_period (r "repayment_period")) ∧
        r2 "interest_rate" = some (extract_rate (r "interest_rate")) ∧
        r2 "age_criteria" = some (extract_age (r "age_criteria")) ∧
        r2 "eligibility" = some (cleanEligVal (r "eligibility")) := by
  intro r2 hr2
  have c1 : (loansExtractAmounts Y).cols = Y.cols := loansExtractAmounts_cols Y
  have c2 : (loansExtractPeriod (loansExtractAmounts Y)).cols = Y.cols := by
    rw [loansExtractPeriod_cols _ (by rw [c1]; exact h4), c1]
  have c3 : (loansExtractRate (loansExtractPeriod (loansExtractAmounts Y))).cols = Y.cols := by
    rw [loansExtractRate_cols, c2]
  have c4 : (loansExtractAge (loansExtractRate (loansExtractPeriod
      (loansExtractAmounts Y)))).cols = Y.cols := by
    rw [loansExtractAge_cols, c3]
  obtain ⟨r5, hr5, he5⟩ := mem_loansCleanElig (by rw [c4]; exact h7) hr2
  obtain ⟨r4, hr4, he4⟩ := mem_loansExtractAge (by rw [c3]; exact h6) hr5
  obtain ⟨r3, hr3, he3⟩ := mem_loansExtractRate (by rw [c2]; exact h5) hr4
  obtain ⟨r2b, hr2b, he2⟩ := mem_loansExtractPeriod (by rw [c1]; exact h4) hr3
  rw [loansExtractAmounts_eq Y h1 h2 h3] at hr2b
  obtain ⟨ra, hra, hea⟩ := mem_mapCol hr2b
  obtain ⟨rb, hrb, heb⟩ := mem_mapCol hra
  obtain ⟨rg, hrg, heg⟩ := mem_mapCol hrb
  refine ⟨rg, hrg, ?_, ?_, ?_, ?_, ?_, ?_, ?_⟩ <;>
    (rw [he5, he4, he3, he2, hea, heb, heg]; simp [updateRow])

theorem cleanEligVal_ne_nil (v : Val) : cleanEligVal v ≠ [] := by
  cases v with
  | none => simp [cleanEligVal, sl]
  | some t =>
    simp only [cleanEligVal]
    split
    · simp [sl]
    · split <;> split <;> first | assumption | simp [sl]

theorem loansTail_fields (d : DF) (p : Row × ℚ)
    (hp : p ∈ (loansReorder (loansAddDuration (loansAddType (loansAddScore
      (loansRemoveEmpty d))))).rows) :
    ∃ r ∈ d.rows, ∀ k : String, k ≠ "loan_type" → k ≠ "loan_duration_category" →
      p.1 k = r k := by
  obtain ⟨r2, hr2, hk⟩ := loansFinal_mem _ p hp
  exact ⟨r2, (List.mem_filter.mp hr2).1, hk⟩

theorem scholTail_fields (d : DF) (p : Row × ℚ)
    (hp : p ∈ (scholReorder (scholAddRegion (scholAddType (scholAddScore
      (scholRemoveEmpty d))))).rows) :
    ∃ r ∈ d.rows, ∀ k : String, k ≠ "scholarship_type" → k ≠ "eligible_region" →
      p.1 k = r k := by
  obtain ⟨r2, hr2, hk⟩ := scholFinal_mem _ p hp
  exact ⟨r2, (List.mem_filter.mp hr2).1, hk⟩

/-- A scholarship source carrying description and contact columns. -/
def c2SrcA : DF :=
  ⟨["name", "source", "description", "contact"],
   [rowOf [("name", sl "Alpha Grant"), ("source", sl "SiteA"),
           ("description", sl "merit award"), ("contact", sl "<b>")]]⟩

/-- A scholarship source lacking those columns. -/
def c2SrcB : DF :=
  ⟨["name", "source"], [rowOf [("name", sl "Beta Grant"), ("source", sl "SiteB")]]⟩

/-- The final scholarship table of the two sources above. -/
def c2Final : FinalDF := scholPipeline (concatAll [c2SrcA, c2SrcB])

/-- C2 counterexample: in the final output table, the description cell
of the row whose source lacks a description column is null (a pandas
NaN survives the whole pipeline), and a contact cell consisting of a
single HTML tag has become the empty string; so not every field is the
sentinel or a non-empty string. -/
theorem claim_C2_counterexample :
    c2Final.rows.length = 2 ∧
    (c2Final.rows.getD 1 (fun _ => none, 0)).1 "description" = none ∧
    (c2Final.rows.getD 0 (fun _ => none, 0)).1 "contact" = some [] := by
  refine ⟨?_, ?_, ?_⟩ <;> decide

/-- C2 amended: in the final output table of either domain, every
field that is rewritten by a null-guarded extractor (eligibility,
funding amount and deadline for scholarships; eligibility, the three
amount fields, repayment period, interest rate and age criteria for
loans) is a non-null, non-empty string; fields that only pass through
the text cleaner (such as description or contact) may remain null or
become empty. -/
theorem claim_C2_amended (df : DF) :
    (∀ p : Row × ℚ, p ∈ (scholPipeline df).rows →
      (∃ s : Text, p.1 "eligibility" = some s ∧ s ≠ []) ∧
      (∃ s : Text, p.1 "funding_amount" = some s ∧ s ≠ []) ∧
      (∃ s : Text, p.1 "deadline" = some s ∧ s ≠ [])) ∧
    (∀ p : Row × ℚ, p ∈ (loansPipeline df).rows →
      (∃ s : Text, p.1 "eligibility" = some s ∧ s ≠ []) ∧
      (∃ s : Text, p.1 "funding_amount" = some s ∧ s ≠ []) ∧
      (∃ s : Text, p.1 "maximum_loan_amount" = some s ∧ s ≠ []) ∧
      (∃ s : Text, p.1 "minimum_loan_amount" = some s ∧ s ≠ []) ∧
      (∃ s : Text, p.1 "repayment_period" = some s ∧ s ≠ []) ∧
      (∃ s : Text, p.1 "interest_rate" = some s ∧ s ≠ []) ∧
      (∃ s : Text, p.1 "age_criteria" = some s ∧ s ≠ [])) := by
  constructor
  · intro p hp
    unfold scholPipeline at hp
    obtain ⟨r2, hr2, hk⟩ := scholTail_fields _ p hp
    obtain ⟨r, _, hf, hd, he⟩ := scholMid_shape _ r2 hr2
    refine ⟨⟨cleanEligVal (r "eligibility"), ?_, cleanEligVal_ne_nil _⟩,
      ⟨schol_extract_amount (r "funding_amount"), ?_, schol_extract_amount_ne_nil _⟩,
      ⟨extract_deadline_date (r "deadline"), ?_, extract_deadline_date_ne_nil _⟩⟩
    · rw [hk "eligibility" (by decide) (by decide)]
      exact he
    · rw [hk "funding_amount" (by decide) (by decide)]
      exact hf
    · rw [hk "deadline" (by decide) (by decide)]
      exact hd
  · intro p hp
    unfold loansPipeline at hp
    obtain ⟨r2, hr2, hk⟩ := loansTail_fields _ p hp
    have hcolsY : (cleanTextCols loansTextCols
        (loansRemoveDuplicates (loansStandardize df))).cols = (loansStandardize df).cols := by
      rw [cleanTextCols_cols, loansRemoveDuplicates_cols]
    have hcontains : ∀ c : String, c ∈ loansAllExpected →
        (cleanTextCols loansTextCols
          (loansRemoveDuplicates (loansStandardize df))).cols.contains c = true := by
      intro c hc
      rw [hcolsY]
      have : c ∈ (loansStandardize df).cols := (loansStandardize_cols_mem df c).mpr (Or.inr hc)
      simpa using this
    obtain ⟨r, _, hf, hmax, hmin, hrp, hir, hag, hel⟩ :=
      loansMid_shape _ (hcontains _ (by decide)) (hcontains _ (by decide))
        (hcontains _ (by decide)) (hcontains _ (by decide)) (hcontains _ (by decide))
        (hcontains _ (by decide)) (hcontains _ (by decide)) r2 hr2
    refine ⟨⟨cleanEligVal (r "eligibility"), ?_, cleanEligVal_ne_nil _⟩,
      ⟨extract_amount (r "funding_amount"), ?_, extract_amount_ne_nil _⟩,
      ⟨extract_amount (r "maximum_loan_amount"), ?_, extract_amount_ne_nil _⟩,
      ⟨extract_amount (r "minimum_loan_amount"), ?_, extract_amount_ne_nil _⟩,
      ⟨extract_period (r "repayment_period"), ?_, extract_period_ne_nil _⟩,
      ⟨extract_rate (r "interest_rate"), ?_, extract_rate_ne_nil _⟩,
      ⟨extract_age (r "age_criteria"), ?_, extract_age_ne_nil _⟩⟩
    · rw [hk "eligibility" (by decide) (by decide)]
      exact hel
    · rw [hk "funding_amount" (by decide) (by decide)]
      exact hf
    · rw [hk "maximum_loan_amount" (by decide) (by decide)]
      exact hmax
    · rw [hk "minimum_loan_amount" (by decide) (by decide)]
      exact hmin
    · rw [hk "repayment_period" (by decide) (by decide)]
      exact hrp
    · rw [hk "interest_rate" (by decide) (by decide)]
      exact hir
    · rw [hk "age_criteria" (by decide) (by decide)]
      exact hag

/-- Witness for C2 amended: the deadline cell of a concrete surviving
scholarship row is a non-empty string. -/
theorem claim_C2_amended_witness :
    ∃ s : Text, ((scholPipeline c4GoodDf).rows.get ⟨0, by decide⟩).1 "deadline"
        = some s ∧ s ≠ [] :=
  ((claim_C2_amended c4GoodDf).1 _ (List.get_mem _ _ _)).2.2


/-! ## Idempotence of the amount extractor -/

/-! ### Character-class facts -/

theorem digit_cases {c : Char} (h : c.isDigit = true) :
    c = '0' ∨ c = '1' ∨ c = '2' ∨ c = '3' ∨ c = '4' ∨ c = '5' ∨
      c = '6' ∨ c = '7' ∨ c = '8' ∨ c = '9' := by
  have hv : 48 ≤ c.toNat ∧ c.toNat ≤ 57 := by
    simp only [Char.isDigit, Bool.and_eq_true, decide_eq_true_eq] at h
    exact ⟨h.1, h.2⟩
  have hd : c.toNat = 48 ∨ c.toNat = 49 ∨ c.toNat = 50 ∨ c.toNat = 51 ∨
      c.toNat = 52 ∨ c.toNat = 53 ∨ c.toNat = 54 ∨ c.toNat = 55 ∨
      c.toNat = 56 ∨ c.toNat = 57 := by omega
  have key : ∀ d : Char, c.toNat = d.toNat → c = d := by
    intro d hcd
    exact Char.ext (UInt32.ext hcd)
  rcases hd with h | h | h | h | h | h | h | h | h | h
  · exact Or.inl (key '0' h)
  · exact Or.inr (Or.inl (key '1' h))
  · exact Or.inr (Or.inr (Or.inl (key '2' h)))
  · exact Or.inr (Or.inr (Or.inr (Or.inl (key '3' h))))
  · exact Or.inr (Or.inr (Or.inr (Or.inr (Or.inl (key '4' h)))))
  · exact Or.inr (Or.inr (Or.inr (Or.inr (Or.inr (Or.inl (key '5' h))))))
  · exact Or.inr (Or.inr (Or.inr (Or.inr (Or.inr (Or.inr (Or.inl (key '6' h)))))))
  · exact Or.inr (Or.inr (Or.inr (Or.inr (Or.inr (Or.inr (Or.inr (Or.inl (key '7' h))))))))
  · exact Or.inr (Or.inr (Or.inr (Or.inr (Or.inr (Or.inr (Or.inr (Or.inr (Or.inl (key '8' h)))))))))
  · exact Or.inr (Or.inr (Or.inr (Or.inr (Or.inr (Or.inr (Or.inr (Or.inr (Or.inr (key '9' h)))))))))

theorem digit_toLower {c : Char} (h : c.isDigit = true) : c.toLower = c := by
  rcases digit_cases h with h | h | h | h | h | h | h | h | h | h <;> subst h <;> decide

theorem digit_not_space {c : Char} (h : c.isDigit = true) : isPySpace c = false := by
  rcases digit_cases h with h | h | h | h | h | h | h | h | h | h <;> subst h <;> decide

theorem digit_ne_comma {c : Char} (h : c.isDigit = true) : c ≠ ',' := by
  rcases digit_cases h with h | h | h | h | h | h | h | h | h | h <;> subst h <;> decide

theorem digit_isDigitComma {c : Char} (h : c.isDigit = true) : isDigitComma c = true := by
  unfold isDigitComma
  rw [h]
  rfl

/-! ### takeWhile and dropWhile over appends -/

theorem takeWhile_append_all {p : Char → Bool} :
    ∀ {a : Text} (b : Text), (∀ c ∈ a, p c = true) →
      (a ++ b).takeWhile p = a ++ b.takeWhile p := by
  intro a
  induction a with
  | nil => intro b _; rfl
  | cons c t ih =>
    intro b h
    rw [List.cons_append, List.takeWhile_cons_of_pos (h c (List.mem_cons_self c t)),
      ih b (fun d hd => h d (List.mem_cons_of_mem c hd)), List.cons_append]

theorem dropWhile_append_all {p : Char → Bool} :
    ∀ {a : Text} (b : Text), (∀ c ∈ a, p c = true) →
      (a ++ b).dropWhile p = b.dropWhile p := by
  intro a
  induction a with
  | nil => intro b _; rfl
  | cons c t ih =>
    intro b h
    rw [List.cons_append, List.dropWhile_cons_of_pos (h c (List.mem_cons_self c t)),
      ih b (fun d hd => h d (List.mem_cons_of_mem c hd))]

theorem takeWhile_ne_nil_append {p : Char → Bool} {a : Text} (b : Text)
    (h : a.takeWhile p ≠ []) : (a ++ b).takeWhile p ≠ [] := by
  cases a with
  | nil => exact absurd rfl h
  | cons c t =>
    by_cases hp : p c = true
    · rw [List.cons_append, List.takeWhile_cons_of_pos hp]
      simp
    · rw [List.takeWhile_cons_of_neg hp] at h
      exact absurd rfl h

theorem dropWhile_append_split (p : Char → Bool) :
    ∀ (a b : Text), (a ++ b).dropWhile p =
      if a.dropWhile p = [] then b.dropWhile p else a.dropWhile p ++ b := by
  intro a
  induction a with
  | nil => intro b; simp
  | cons c t ih =>
    intro b
    by_cases hp : p c = true
    · rw [List.cons_append, List.dropWhile_cons_of_pos hp, List.dropWhile_cons_of_pos hp, ih b]
    · rw [List.cons_append, List.dropWhile_cons_of_neg hp, List.dropWhile_cons_of_neg hp]
      rw [if_neg (by simp), List.cons_append]

/-! ### The stripped text: idempotence and the whitespace trail -/

theorem head?_dropWhile_not (p : Char → Bool) :
    ∀ (l : Text) {c : Char}, (l.dropWhile p).head? = some c → p c = false := by
  intro l
  induction l with
  | nil => intro c h; cases h
  | cons a t ih =>
    intro c h
    by_cases hp : p a = true
    · rw [List.dropWhile_cons_of_pos hp] at h
      exact ih h
    · rw [List.dropWhile_cons_of_neg hp] at h
      have hac : a = c := by
        have : some a = some c := h
        cases this
        rfl
      rw [← hac]
      cases hq : p a
      · rfl
      · exact absurd hq hp

theorem dropWhile_eq_self_of_head? {p : Char → Bool} {l : Text}
    (h : ∀ c, l.head? = some c → p c = false) : l.dropWhile p = l := by
  cases l with
  | nil => rfl
  | cons a t =>
    rw [List.dropWhile_cons_of_neg]
    rw [h a rfl]
    exact Bool.false_ne_true

theorem dropWhile_dropWhile (p : Char → Bool) (l : Text) :
    (l.dropWhile p).dropWhile p = l.dropWhile p :=
  dropWhile_eq_self_of_head? (fun _ hc => head?_dropWhile_not p l hc)

theorem pyStrip_head? {l : Text} {c : Char} (h : (pyStrip l).head? = some c) :
    isPySpace c = false := by
  unfold pyStrip at h
  rw [List.head?_reverse] at h
  have hne : (l.dropWhile isPySpace).reverse.dropWhile isPySpace ≠ [] := by
    intro hcon
    rw [hcon] at h
    cases h
  have hdec := List.takeWhile_append_dropWhile (p := isPySpace)
    (l := (l.dropWhile isPySpace).reverse)
  have hlast : ((l.dropWhile isPySpace).reverse.dropWhile isPySpace).getLast? =
      ((l.dropWhile isPySpace).reverse).getLast? := by
    conv_rhs => rw [← hdec]
    rw [List.getLast?_append_of_ne_nil _ hne]
  rw [hlast, List.getLast?_reverse] at h
  exact head?_dropWhile_not isPySpace l h

theorem pyStrip_idem (l : Text) : pyStrip (pyStrip l) = pyStrip l := by
  have h1 : (pyStrip l).dropWhile isPySpace = pyStrip l :=
    dropWhile_eq_self_of_head? (fun _ hc => pyStrip_head? hc)
  have h2 : (pyStrip l).reverse.dropWhile isPySpace = (pyStrip l).reverse := by
    show (((l.dropWhile isPySpace).reverse.dropWhile isPySpace).reverse).reverse.dropWhile isPySpace
      = (pyStrip l).reverse
    rw [List.reverse_reverse]
    show ((l.dropWhile isPySpace).reverse.dropWhile isPySpace).dropWhile isPySpace
      = (pyStrip l).reverse
    rw [dropWhile_dropWhile]
    unfold pyStrip
    rw [List.reverse_reverse]
  calc pyStrip (pyStrip l)
      = (((pyStrip l).dropWhile isPySpace).reverse.dropWhile isPySpace).reverse := rfl
    _ = ((pyStrip l).reverse.dropWhile isPySpace).reverse := by rw [h1]
    _ = ((pyStrip l).reverse).reverse := by rw [h2]
    _ = pyStrip l := List.reverse_reverse _

theorem pyStrip_trail (l : Text) :
    ∃ trail : Text, l.dropWhile isPySpace = pyStrip l ++ trail ∧
      ∀ c ∈ trail, isPySpace c = true := by
  refine ⟨((l.dropWhile isPySpace).reverse.takeWhile isPySpace).reverse, ?_, ?_⟩
  · calc l.dropWhile isPySpace
        = ((l.dropWhile isPySpace).reverse).reverse := (List.reverse_reverse _).symm
      _ = (((l.dropWhile isPySpace).reverse.takeWhile isPySpace) ++
            ((l.dropWhile isPySpace).reverse.dropWhile isPySpace)).reverse := by
          rw [List.takeWhile_append_dropWhile]
      _ = ((l.dropWhile isPySpace).reverse.dropWhile isPySpace).reverse ++
            ((l.dropWhile isPySpace).reverse.takeWhile isPySpace).reverse := by
          rw [List.reverse_append]
      _ = pyStrip l ++ ((l.dropWhile isPySpace).reverse.takeWhile isPySpace).reverse := rfl
  · intro c hc
    rw [List.mem_reverse] at hc
    exact List.mem_takeWhile_imp hc

theorem dropWhile_suffix (p : Char → Bool) (l : Text) : l.dropWhile p <:+ l :=
  ⟨l.takeWhile p, List.takeWhile_append_dropWhile p l⟩

/-! ### Leftmost search as a property of suffixes -/

theorem searchWith_none_suffix {α : Type} {m : Text → Option α} :
    ∀ {l : Text}, searchWith m l = none → ∀ {s : Text}, s <:+ l → m s = none := by
  intro l
  induction l with
  | nil =>
    intro h s hs
    rw [List.suffix_nil.mp hs]
    rw [searchWith] at h
    exact h
  | cons c t ih =>
    intro h s hs
    rw [searchWith] at h
    have hm : m (c :: t) = none ∧ searchWith m t = none := by
      cases hmc : m (c :: t) with
      | some g => rw [hmc] at h; cases h
      | none => rw [hmc] at h; exact ⟨rfl, h⟩
    rcases List.suffix_cons_iff.mp hs with h1 | h1
    · rw [h1]; exact hm.1
    · exact ih hm.2 h1

theorem searchWith_none_of {α : Type} {m : Text → Option α} :
    ∀ {l : Text}, (∀ s, s <:+ l → m s = none) → searchWith m l = none := by
  intro l
  induction l with
  | nil =>
    intro h
    rw [searchWith]
    exact h [] List.suffix_rfl
  | cons c t ih =>
    intro h
    rw [searchWith]
    rw [h (c :: t) List.suffix_rfl]
    exact ih (fun s hs => h s (hs.trans (List.suffix_cons c t)))

theorem searchWith_some_ex {α : Type} {m : Text → Option α} :
    ∀ {l : Text} {g : α}, searchWith m l = some g → ∃ s, m s = some g := by
  intro l
  induction l with
  | nil =>
    intro g h
    rw [searchWith] at h
    exact ⟨[], h⟩
  | cons c t ih =>
    intro g h
    rw [searchWith] at h
    cases hm : m (c :: t) with
    | some g2 =>
      rw [hm] at h
      exact ⟨c :: t, by rw [hm]; exact h⟩
    | none =>
      rw [hm] at h
      exact ih h

theorem searchWith_cons_some {α : Type} {m : Text → Option α} {c : Char} {t : Text} {g : α}
    (h : m (c :: t) = some g) : searchWith m (c :: t) = some g := by
  rw [searchWith, h]

/-! ### The number group -/

theorem matchNumGroup_isSome {x : Text} :
    (matchNumGroup x).isSome = true ↔ x.takeWhile isDigitComma ≠ [] := by
  unfold matchNumGroup
  by_cases h : x.takeWhile isDigitComma = []
  · rw [if_pos h]
    simp [h]
  · rw [if_neg h]
    constructor
    · intro _; exact h
    · intro _
      split
      · split <;> rfl
      · rfl

theorem matchNumGroup_mono {x b : Text} (h : (matchNumGroup x).isSome = true) :
    (matchNumGroup (x ++ b)).isSome = true := by
  rw [matchNumGroup_isSome] at h ⊢
  exact takeWhile_ne_nil_append b h

theorem numGroupDrop_mono {x trail : Text}
    (h : (matchNumGroup (x.dropWhile isPySpace)).isSome = true) :
    (matchNumGroup ((x ++ trail).dropWhile isPySpace)).isSome = true := by
  rw [dropWhile_append_split]
  by_cases hx : x.dropWhile isPySpace = []
  · rw [hx] at h
    exact absurd h (by decide)
  · rw [if_neg hx]
    exact matchNumGroup_mono h

theorem matchNumGroup_shape {x g : Text} (h : matchNumGroup x = some g) :
    ∃ run frac, g = run ++ frac ∧ run ≠ [] ∧ (∀ c ∈ run, isDigitComma c = true) ∧
      (frac = [] ∨ ∃ d1 d2, frac = '.' :: d1 :: d2 :: [] ∧
        d1.isDigit = true ∧ d2.isDigit = true) := by
  unfold matchNumGroup at h
  by_cases hrun : x.takeWhile isDigitComma = []
  · rw [if_pos hrun] at h
    cases h
  · rw [if_neg hrun] at h
    split at h
    · rename_i d1 d2 tail heq
      split at h
      · rename_i hdd
        cases h
        exact ⟨_, _, rfl, hrun, fun c hc => List.mem_takeWhile_imp hc,
          Or.inr ⟨d1, d2, rfl, ((Bool.and_eq_true _ _).mp hdd).1,
            ((Bool.and_eq_true _ _).mp hdd).2⟩⟩
      · cases h
        exact ⟨_, [], (List.append_nil _).symm, hrun,
          fun c hc => List.mem_takeWhile_imp hc, Or.inl rfl⟩
    · cases h
      exact ⟨_, [], (List.append_nil _).symm, hrun,
        fun c hc => List.mem_takeWhile_imp hc, Or.inl rfl⟩

theorem matchNumGroup_exact {ds frac : Text} (hds : ds ≠ [])
    (hd : ∀ c ∈ ds, c.isDigit = true)
    (hfrac : frac = [] ∨ ∃ d1 d2, frac = '.' :: d1 :: d2 :: [] ∧
      d1.isDigit = true ∧ d2.isDigit = true) :
    matchNumGroup (ds ++ frac) = some (ds ++ frac) := by
  have hdc : ∀ c ∈ ds, isDigitComma c = true := fun c hc => digit_isDigitComma (hd c hc)
  unfold matchNumGroup
  rw [takeWhile_append_all frac hdc, dropWhile_append_all frac hdc]
  rcases hfrac with hf | ⟨d1, d2, hf, h1, h2⟩
  · subst hf
    rw [show List.takeWhile isDigitComma [] = ([] : Text) from rfl,
      show List.dropWhile isDigitComma [] = ([] : Text) from rfl]
    rw [if_neg (by simp [hds])]
  · subst hf
    rw [show List.takeWhile isDigitComma ('.' :: d1 :: d2 :: []) = ([] : Text) from rfl,
      show List.dropWhile isDigitComma ('.' :: d1 :: d2 :: []) = '.' :: d1 :: d2 :: [] from rfl]
    rw [if_neg (by simp [hds])]
    show (if (d1.isDigit && d2.isDigit) = true then
        some (ds ++ [] ++ ('.' :: d1 :: d2 :: [])) else some (ds ++ [])) =
      some (ds ++ ('.' :: d1 :: d2 :: []))
    rw [if_pos (by rw [h1, h2]; rfl)]
    rw [List.append_nil]

/-! ### Monotonicity of the matchers under a trailing whitespace run -/

theorem matchRsAt_mono {s trail : Text} (h : (matchRsAt s).isSome = true) :
    (matchRsAt (s ++ trail)).isSome = true := by
  match s with
  | [] => exact absurd h (by decide)
  | [c] =>
    exfalso
    have hn : matchRsAt [c] = none := rfl
    rw [hn] at h
    cases h
  | c1 :: c2 :: rest =>
    have e1 : matchRsAt (c1 :: c2 :: rest) =
        if c1.toLower = 'r' && c2.toLower = 's' then
          matchNumGroup ((skipDot rest).dropWhile isPySpace) else none := rfl
    have e2 : matchRsAt (c1 :: c2 :: (rest ++ trail)) =
        if c1.toLower = 'r' && c2.toLower = 's' then
          matchNumGroup ((skipDot (rest ++ trail)).dropWhile isPySpace) else none := rfl
    rw [show (c1 :: c2 :: rest) ++ trail = c1 :: c2 :: (rest ++ trail) from rfl, e2]
    rw [e1] at h
    by_cases hc : (c1.toLower = 'r' && c2.toLower = 's') = true
    · rw [if_pos hc] at h
      rw [if_pos hc]
      cases rest with
      | nil =>
        exfalso
        exact absurd h (by decide)
      | cons d r =>
        have hsk : skipDot ((d :: r) ++ trail) = skipDot (d :: r) ++ trail := by
          have f1 : skipDot (d :: (r ++ trail)) =
              if d = '.' then r ++ trail else d :: (r ++ trail) := rfl
          have f2 : skipDot (d :: r) = if d = '.' then r else d :: r := rfl
          rw [List.cons_append, f1, f2]
          by_cases hd : d = '.'
          · rw [if_pos hd, if_pos hd]
          · rw [if_neg hd, if_neg hd, List.cons_append]
        rw [hsk]
        exact numGroupDrop_mono h
    · rw [if_neg hc] at h
      exact absurd h (by decide)

theorem matchLkrAt_mono {s trail : Text} (h : (matchLkrAt s).isSome = true) :
    (matchLkrAt (s ++ trail)).isSome = true := by
  match s with
  | [] => exact absurd h (by decide)
  | [c] =>
    exfalso
    have hn : matchLkrAt [c] = none := rfl
    rw [hn] at h
    cases h
  | [c1, c2] =>
    exfalso
    have hn : matchLkrAt [c1, c2] = none := rfl
    rw [hn] at h
    cases h
  | c1 :: c2 :: c3 :: rest =>
    have e1 : matchLkrAt (c1 :: c2 :: c3 :: rest) =
        if c1.toLower = 'l' && c2.toLower = 'k' && c3.toLower = 'r' then
          matchNumGroup (rest.dropWhile isPySpace) else none := rfl
    have e2 : matchLkrAt (c1 :: c2 :: c3 :: (rest ++ trail)) =
        if c1.toLower = 'l' && c2.toLower = 'k' && c3.toLower = 'r' then
          matchNumGroup ((rest ++ trail).dropWhile isPySpace) else none := rfl
    rw [show (c1 :: c2 :: c3 :: rest) ++ trail = c1 :: c2 :: c3 :: (rest ++ trail) from rfl, e2]
    rw [e1] at h
    by_cases hc : (c1.toLower = 'l' && c2.toLower = 'k' && c3.toLower = 'r') = true
    · rw [if_pos hc] at h
      rw [if_pos hc]
      exact numGroupDrop_mono h
    · rw [if_neg hc] at h
      exact absurd h (by decide)

theorem matchUsdAt_mono {s trail : Text} (h : (matchUsdAt s).isSome = true) :
    (matchUsdAt (s ++ trail)).isSome = true := by
  match s with
  | [] => exact absurd h (by decide)
  | [c] =>
    exfalso
    have hn : matchUsdAt [c] = none := rfl
    rw [hn] at h
    cases h
  | [c1, c2] =>
    exfalso
    have hn : matchUsdAt [c1, c2] = none := rfl
    rw [hn] at h
    cases h
  | c1 :: c2 :: c3 :: rest =>
    have e1 : matchUsdAt (c1 :: c2 :: c3 :: rest) =
        if c1.toLower = 'u' && c2.toLower = 's' && c3.toLower = 'd' then
          matchNumGroup (rest.dropWhile isPySpace) else none := rfl
    have e2 : matchUsdAt (c1 :: c2 :: c3 :: (rest ++ trail)) =
        if c1.toLower = 'u' && c2.toLower = 's' && c3.toLower = 'd' then
          matchNumGroup ((rest ++ trail).dropWhile isPySpace) else none := rfl
    rw [show (c1 :: c2 :: c3 :: rest) ++ trail = c1 :: c2 :: c3 :: (rest ++ trail) from rfl, e2]
    rw [e1] at h
    by_cases hc : (c1.toLower = 'u' && c2.toLower = 's' && c3.toLower = 'd') = true
    · rw [if_pos hc] at h
      rw [if_pos hc]
      exact numGroupDrop_mono h
    · rw [if_neg hc] at h
      exact absurd h (by decide)

theorem matchDollarAt_mono {s trail : Text} (h : (matchDollarAt s).isSome = true) :
    (matchDollarAt (s ++ trail)).isSome = true := by
  match s with
  | [] => exact absurd h (by decide)
  | c :: rest =>
    have e1 : matchDollarAt (c :: rest) =
        if c = '$' then matchNumGroup rest else none := rfl
    have e2 : matchDollarAt (c :: (rest ++ trail)) =
        if c = '$' then matchNumGroup (rest ++ trail) else none := rfl
    rw [show (c :: rest) ++ trail = c :: (rest ++ trail) from rfl, e2]
    rw [e1] at h
    by_cases hc : c = '$'
    · rw [if_pos hc] at h
      rw [if_pos hc]
      exact matchNumGroup_mono h
    · rw [if_neg hc] at h
      exact absurd h (by decide)

/-! ### The combined currency search and the stripped text -/

theorem amountSearch_none_iff {l : Text} :
    amountSearch l = none ↔ searchWith matchRsAt l = none ∧ searchWith matchLkrAt l = none ∧
      searchWith matchDollarAt l = none ∧ searchWith matchUsdAt l = none := by
  unfold amountSearch
  cases h1 : searchWith matchRsAt l <;> cases h2 : searchWith matchLkrAt l <;>
    cases h3 : searchWith matchDollarAt l <;> cases h4 : searchWith matchUsdAt l <;>
    simp [h1, h2, h3, h4]

theorem amountSearch_pyStrip_none {t : Text} (h : amountSearch t = none) :
    amountSearch (pyStrip t) = none := by
  obtain ⟨trail, htr, hsp⟩ := pyStrip_trail t
  have hsuf : pyStrip t ++ trail <:+ t := by
    have h0 := dropWhile_suffix isPySpace t
    rw [htr] at h0
    exact h0
  rw [amountSearch_none_iff] at h
  obtain ⟨h1, h2, h3, h4⟩ := h
  have main : ∀ m : Text → Option Text,
      (∀ s : Text, (m s).isSome = true → (m (s ++ trail)).isSome = true) →
      searchWith m t = none → searchWith m (pyStrip t) = none := by
    intro m hmono hnone
    apply searchWith_none_of
    intro s hs
    cases hms : m s with
    | none => rfl
    | some g =>
      exfalso
      have hsm : (m (s ++ trail)).isSome = true := hmono s (by rw [hms]; rfl)
      have hsuf2 : s ++ trail <:+ t := by
        obtain ⟨w, hw⟩ := hs
        have : s ++ trail <:+ pyStrip t ++ trail :=
          ⟨w, by rw [← List.append_assoc, hw]⟩
        exact this.trans hsuf
      have hnone2 := searchWith_none_suffix hnone hsuf2
      rw [hnone2] at hsm
      cases hsm
  rw [amountSearch_none_iff]
  exact ⟨main matchRsAt (fun _ hh => matchRsAt_mono hh) h1,
    main matchLkrAt (fun _ hh => matchLkrAt_mono hh) h2,
    main matchDollarAt (fun _ hh => matchDollarAt_mono hh) h3,
    main matchUsdAt (fun _ hh => matchUsdAt_mono hh) h4⟩

/-! ### Shape of any successful currency search -/

theorem matchRsAt_group {l g : Text} (h : matchRsAt l = some g) :
    ∃ x, matchNumGroup x = some g := by
  unfold matchRsAt at h
  split at h
  · split at h
    · exact ⟨_, h⟩
    · cases h
  · cases h

theorem matchLkrAt_group {l g : Text} (h : matchLkrAt l = some g) :
    ∃ x, matchNumGroup x = some g := by
  unfold matchLkrAt at h
  split at h
  · split at h
    · exact ⟨_, h⟩
    · cases h
  · cases h

theorem matchDollarAt_group {l g : Text} (h : matchDollarAt l = some g) :
    ∃ x, matchNumGroup x = some g := by
  unfold matchDollarAt at h
  split at h
  · split at h
    · exact ⟨_, h⟩
    · cases h
  · cases h

theorem matchUsdAt_group {l g : Text} (h : matchUsdAt l = some g) :
    ∃ x, matchNumGroup x = some g := by
  unfold matchUsdAt at h
  split at h
  · split at h
    · exact ⟨_, h⟩
    · cases h
  · cases h

theorem amountSearch_shape {t g : Text} (h : amountSearch t = some g) :
    ∃ run frac, g = run ++ frac ∧ run ≠ [] ∧ (∀ c ∈ run, isDigitComma c = true) ∧
      (frac = [] ∨ ∃ d1 d2, frac = '.' :: d1 :: d2 :: [] ∧
        d1.isDigit = true ∧ d2.isDigit = true) := by
  have hx : ∃ x, matchNumGroup x = some g := by
    unfold amountSearch at h
    cases h1 : searchWith matchRsAt t with
    | some g2 =>
      rw [h1] at h
      cases h
      obtain ⟨s, hs⟩ := searchWith_some_ex h1
      exact matchRsAt_group hs
    | none =>
      rw [h1] at h
      cases h2 : searchWith matchLkrAt t with
      | some g2 =>
        rw [h2] at h
        cases h
        obtain ⟨s, hs⟩ := searchWith_some_ex h2
        exact matchLkrAt_group hs
      | none =>
        rw [h2] at h
        cases h3 : searchWith matchDollarAt t with
        | some g2 =>
          rw [h3] at h
          cases h
          obtain ⟨s, hs⟩ := searchWith_some_ex h3
          exact matchDollarAt_group hs
        | none =>
          rw [h3] at h
          obtain ⟨s, hs⟩ := searchWith_some_ex h
          exact matchUsdAt_group hs
  obtain ⟨x, hxg⟩ := hx
  exact matchNumGroup_shape hxg

/-! ### Re-matching the emitted amount -/

theorem filter_ne_comma_of (l : Text) (h : ∀ c ∈ l, c ≠ ',') : stripCommas l = l := by
  unfold stripCommas
  exact List.filter_eq_self.mpr fun a ha => decide_eq_true (h a ha)

theorem rs_rematch {ds frac : Text} (hds : ds ≠ [])
    (hd : ∀ c ∈ ds, c.isDigit = true)
    (hfrac : frac = [] ∨ ∃ d1 d2, frac = '.' :: d1 :: d2 :: [] ∧
      d1.isDigit = true ∧ d2.isDigit = true) :
    amountSearch (sl "Rs. " ++ (ds ++ frac)) = some (ds ++ frac) := by
  have hhead : matchRsAt ('R' :: 's' :: '.' :: ' ' :: (ds ++ frac)) = some (ds ++ frac) := by
    show matchNumGroup ((ds ++ frac).dropWhile isPySpace) = some (ds ++ frac)
    cases ds with
    | nil => exact absurd rfl hds
    | cons d r =>
      rw [List.cons_append, List.dropWhile_cons_of_neg (by
        rw [digit_not_space (hd d (List.mem_cons_self d r))]
        exact Bool.false_ne_true)]
      rw [← List.cons_append]
      exact matchNumGroup_exact hds hd hfrac
  have heq : sl "Rs. " ++ (ds ++ frac) = 'R' :: 's' :: '.' :: ' ' :: (ds ++ frac) := rfl
  rw [heq]
  unfold amountSearch
  rw [searchWith_cons_some hhead]

/-! ### The four pass-through routes of the extractor -/

theorem extract_na (kws : List Text) : extractAmountWith kws (some (sl "N/A")) = sl "N/A" := by
  simp [extractAmountWith]

theorem extract_pass (kws : List Text) {t : Text} (hna : t ≠ sl "N/A")
    (hs : amountSearch t = none) (hstrip : pyStrip t = t) (hnil : t ≠ []) :
    extractAmountWith kws (some t) = t := by
  simp only [extractAmountWith, hs]
  rw [if_neg hna]
  by_cases hp : t.contains '%' = true
  · rw [if_pos hp]
    exact hstrip
  · rw [if_neg hp]
    by_cases hk : (kws.any fun k => containsSubstr (toLowerL t) k) = true
    · rw [if_pos hk]
      exact hstrip
    · rw [if_neg hk, if_neg hnil]

theorem extract_pass2 (kws : List Text) {t : Text} (hna : t ≠ sl "N/A")
    (hs : amountSearch t = none) (hp : t.contains '%' = false)
    (hk : (kws.any fun k => containsSubstr (toLowerL t) k) = false) (hnil : t ≠ []) :
    extractAmountWith kws (some t) = t := by
  simp only [extractAmountWith, hs]
  rw [if_neg hna]
  rw [if_neg (by rw [hp]; exact Bool.false_ne_true)]
  rw [if_neg (by rw [hk]; exact Bool.false_ne_true)]
  rw [if_neg hnil]

theorem extract_strip_fixed (kws : List Text) {t : Text}
    (hs2 : amountSearch (pyStrip t) = none) (hnil : pyStrip t ≠ []) :
    extractAmountWith kws (some (pyStrip t)) = pyStrip t := by
  by_cases hna : pyStrip t = sl "N/A"
  · rw [hna, extract_na]
  · exact extract_pass kws hna hs2 (pyStrip_idem t) hnil

/-! ### Fixity of the currency-branch output -/

theorem rsdot_eval {d1 d2 : Char} (h1 : d1.isDigit = true) (h2 : d2.isDigit = true) :
    amountSearch ('R' :: 's' :: '.' :: ' ' :: '.' :: d1 :: d2 :: []) = none ∧
      (('R' :: 's' :: '.' :: ' ' :: '.' :: d1 :: d2 :: [] : Text).contains '%') = false := by
  rcases digit_cases h1 with h | h | h | h | h | h | h | h | h | h <;> subst h <;>
    (rcases digit_cases h2 with h | h | h | h | h | h | h | h | h | h <;> subst h <;> decide)

theorem rsdot_no_kw (kws : List Text)
    (hk3 : ∀ k ∈ kws, ∃ c ∈ k, c ∉ sl "rs. " ∧ c.isDigit = false)
    {d1 d2 : Char} (h1 : d1.isDigit = true) (h2 : d2.isDigit = true) :
    (kws.any fun k =>
      containsSubstr (toLowerL ('R' :: 's' :: '.' :: ' ' :: '.' :: d1 :: d2 :: [])) k) =
      false := by
  cases hq : (kws.any fun k =>
      containsSubstr (toLowerL ('R' :: 's' :: '.' :: ' ' :: '.' :: d1 :: d2 :: [])) k) with
  | false => rfl
  | true =>
    exfalso
    obtain ⟨k, hk, hck⟩ := List.any_eq_true.mp hq
    obtain ⟨c, hckk, hcnot, hcnd⟩ := hk3 k hk
    have hmem := containsSubstr_subset hck c hckk
    rw [show toLowerL ('R' :: 's' :: '.' :: ' ' :: '.' :: d1 :: d2 :: []) =
        'r' :: 's' :: '.' :: ' ' :: '.' :: d1.toLower :: d2.toLower :: [] from rfl] at hmem
    simp only [List.mem_cons, List.not_mem_nil, or_false] at hmem
    rcases hmem with h | h | h | h | h | h | h
    · exact hcnot (by rw [h]; decide)
    · exact hcnot (by rw [h]; decide)
    · exact hcnot (by rw [h]; decide)
    · exact hcnot (by rw [h]; decide)
    · exact hcnot (by rw [h]; decide)
    · rw [digit_toLower h1] at h
      rw [h] at hcnd
      rw [hcnd] at h1
      cases h1
    · rw [digit_toLower h2] at h
      rw [h] at hcnd
      rw [hcnd] at h2
      cases h2

theorem rs_output_fixed (kws : List Text)
    (hk2 : (kws.any fun k => containsSubstr (toLowerL (sl "Rs. ")) k) = false)
    (hk3 : ∀ k ∈ kws, ∃ c ∈ k, c ∉ sl "rs. " ∧ c.isDigit = false)
    {g : Text}
    (hshape : ∃ run frac, g = run ++ frac ∧ run ≠ [] ∧ (∀ c ∈ run, isDigitComma c = true) ∧
      (frac = [] ∨ ∃ d1 d2, frac = '.' :: d1 :: d2 :: [] ∧
        d1.isDigit = true ∧ d2.isDigit = true)) :
    extractAmountWith kws (some (sl "Rs. " ++ stripCommas g)) = sl "Rs. " ++ stripCommas g := by
  obtain ⟨run, frac, hg, hrun_ne, hrun, hfrac⟩ := hshape
  subst hg
  have hfrac_nc : ∀ c ∈ frac, c ≠ ',' := by
    intro c hc
    rcases hfrac with hf | ⟨d1, d2, hf, hd1, hd2⟩
    · rw [hf] at hc; cases hc
    · rw [hf] at hc
      simp only [List.mem_cons, List.not_mem_nil, or_false] at hc
      rcases hc with h | h | h
      · rw [h]; decide
      · rw [h]; exact digit_ne_comma hd1
      · rw [h]; exact digit_ne_comma hd2
  have hsc : stripCommas (run ++ frac) = stripCommas run ++ frac := by
    unfold stripCommas
    rw [List.filter_append]
    have := filter_ne_comma_of frac hfrac_nc
    unfold stripCommas at this
    rw [this]
  have hds_digit : ∀ c ∈ stripCommas run, c.isDigit = true := by
    intro c hc
    unfold stripCommas at hc
    obtain ⟨hcr, hcn⟩ := List.mem_filter.mp hc
    have hdc := hrun c hcr
    unfold isDigitComma at hdc
    rcases (Bool.or_eq_true _ _).mp hdc with h | h
    · exact h
    · exfalso
      have hne : c ≠ ',' := of_decide_eq_true hcn
      exact hne (of_decide_eq_true h)
  rw [hsc]
  cases hds_nil : stripCommas run with
  | nil =>
    rcases hfrac with hf | ⟨d1, d2, hf, hd1, hd2⟩
    · subst hf
      rw [show (([] : Text) ++ ([] : Text)) = ([] : Text) from rfl, List.append_nil]
      exact extract_pass2 kws (by decide) (by decide) (by decide) hk2 (by decide)
    · subst hf
      rw [show (([] : Text) ++ ('.' :: d1 :: d2 :: [])) = '.' :: d1 :: d2 :: [] from rfl]
      rw [show sl "Rs. " ++ ('.' :: d1 :: d2 :: []) =
        'R' :: 's' :: '.' :: ' ' :: '.' :: d1 :: d2 :: [] from rfl]
      obtain ⟨hsd, hpd⟩ := rsdot_eval hd1 hd2
      refine extract_pass2 kws ?_ hsd hpd (rsdot_no_kw kws hk3 hd1 hd2) (by simp)
      intro hcon
      rw [show sl "N/A" = 'N' :: '/' :: 'A' :: [] from rfl] at hcon
      cases hcon
  | cons d ds2 =>
    have hds_ne : stripCommas run ≠ [] := by rw [hds_nil]; simp
    rw [← hds_nil]
    have hna : sl "Rs. " ++ (stripCommas run ++ frac) ≠ sl "N/A" := by
      intro hcon
      rw [show sl "Rs. " ++ (stripCommas run ++ frac) =
        'R' :: 's' :: '.' :: ' ' :: (stripCommas run ++ frac) from rfl,
        show sl "N/A" = 'N' :: '/' :: 'A' :: [] from rfl] at hcon
      cases hcon
    simp only [extractAmountWith]
    rw [if_neg hna]
    rw [rs_rematch hds_ne hds_digit hfrac]
    have hall : stripCommas (stripCommas run ++ frac) = stripCommas run ++ frac := by
      apply filter_ne_comma_of
      intro c hc
      rcases List.mem_append.mp hc with h | h
      · exact digit_ne_comma (hds_digit c h)
      · exact hfrac_nc c h
    show sl "Rs. " ++ stripCommas (stripCommas run ++ frac) =
      sl "Rs. " ++ (stripCommas run ++ frac)
    rw [hall]

/-! ### Idempotence -/

theorem extractAmountWith_idem (kws : List Text)
    (hk1 : ∀ k ∈ kws, ∃ c ∈ k, isPySpace c = false)
    (hk2 : (kws.any fun k => containsSubstr (toLowerL (sl "Rs. ")) k) = false)
    (hk3 : ∀ k ∈ kws, ∃ c ∈ k, c ∉ sl "rs. " ∧ c.isDigit = false)
    (v : Val) :
    extractAmountWith kws (some (extractAmountWith kws v)) = extractAmountWith kws v := by
  cases v with
  | none =>
    rw [show extractAmountWith kws none = sl "N/A" from rfl]
    exact extract_na kws
  | some t =>
    by_cases hna : t = sl "N/A"
    · rw [show extractAmountWith kws (some t) = sl "N/A" from by
        simp only [extractAmountWith]; rw [if_pos hna]]
      exact extract_na kws
    · cases hs : amountSearch t with
      | some g =>
        rw [show extractAmountWith kws (some t) = sl "Rs. " ++ stripCommas g from by
          simp only [extractAmountWith, hs]; rw [if_neg hna]]
        exact rs_output_fixed kws hk2 hk3 (amountSearch_shape hs)
      | none =>
        have hs2 := amountSearch_pyStrip_none hs
        by_cases hp : t.contains '%' = true
        · rw [show extractAmountWith kws (some t) = pyStrip t from by
            simp only [extractAmountWith, hs]; rw [if_neg hna, if_pos hp]]
          exact extract_strip_fixed kws hs2 (pyStrip_ne_nil (contains_mem hp) (by decide))
        · by_cases hk : (kws.any fun k => containsSubstr (toLowerL t) k) = true
          · rw [show extractAmountWith kws (some t) = pyStrip t from by
              simp only [extractAmountWith, hs]; rw [if_neg hna, if_neg hp, if_pos hk]]
            obtain ⟨k, hkk, hck⟩ := List.any_eq_true.mp hk
            exact extract_strip_fixed kws hs2 (kw_strip_ne_nil hck (hk1 k hkk))
          · by_cases ht : t = []
            · rw [show extractAmountWith kws (some t) = sl "N/A" from by
                simp only [extractAmountWith, hs]
                rw [if_neg hna, if_neg hp, if_neg hk, if_pos ht]]
              exact extract_na kws
            · have hpf : t.contains '%' = false := by
                cases hq : t.contains '%'
                · rfl
                · exact absurd hq hp
              have hkf : (kws.any fun k => containsSubstr (toLowerL t) k) = false := by
                cases hq : (kws.any fun k => containsSubstr (toLowerL t) k)
                · rfl
                · exact absurd hq hk
              rw [extract_pass2 kws hna hs hpf hkf ht]
              exact extract_pass2 kws hna hs hpf hkf ht

/-- C8: the amount extractor is idempotent in both domains: applying
the extractor to its own output returns that output unchanged. -/
theorem claim_C8_amount_idempotent (v : Val) :
    extract_amount (some (extract_amount v)) = extract_amount v ∧
      schol_extract_amount (some (schol_extract_amount v)) = schol_extract_amount v :=
  ⟨extractAmountWith_idem loansAmountKws (by decide) (by decide) (by decide) v,
    extractAmountWith_idem scholAmountKws (by decide) (by decide) (by decide) v⟩
